import Mathlib

/-!
# Verification of the video-transcriber orchestration pipeline

Shallow embedding of `src/core/pipeline.py` (class `TranscriptionPipeline`)
together with the JSON ledger persistence it relies on
(`json.dumps` / `json.loads` on `jobs.json`).

Python dictionaries are modelled as insertion-ordered association lists
(`List (String × JValue)`); `d[k] = v` replaces the value in place when the
key exists (keeping its position) and appends otherwise, exactly as a Python
dict does.  The pluggable provider (`AbstractTranscriptionProvider`) is a
record of functions; a raised exception is an `Except.error`.  Observable
side effects (provider calls, `time.sleep`, `logger.*`, ledger writes to
disk) are recorded in an event trace.
-/

set_option maxRecDepth 4000

namespace VideoTranscriber

/-- A JSON value, as produced by Python's `json` module for the job ledger.
Numbers are modelled as integers (the `submitted` timestamp's exact float
representation is irrelevant to every property proved here). -/
inductive JValue where
  | null : JValue
  | bool (b : Bool) : JValue
  | num (n : Int) : JValue
  | str (s : String) : JValue
  | arr (items : List JValue) : JValue
  | obj (fields : List (String × JValue)) : JValue

mutual

/-- Structural decidable equality for `JValue` (the automatic derivation does
not handle the nested inductive). -/
def JValue.decEq : (a b : JValue) → Decidable (a = b)
  | .null, .null => isTrue rfl
  | .bool a, .bool b =>
    match (inferInstance : Decidable (a = b)) with
    | isTrue h => isTrue (by rw [h])
    | isFalse h => isFalse (fun hh => h (JValue.bool.inj hh))
  | .num a, .num b =>
    match (inferInstance : Decidable (a = b)) with
    | isTrue h => isTrue (by rw [h])
    | isFalse h => isFalse (fun hh => h (JValue.num.inj hh))
  | .str a, .str b =>
    match (inferInstance : Decidable (a = b)) with
    | isTrue h => isTrue (by rw [h])
    | isFalse h => isFalse (fun hh => h (JValue.str.inj hh))
  | .arr xs, .arr ys =>
    match JValue.decEqList xs ys with
    | isTrue h => isTrue (by rw [h])
    | isFalse h => isFalse (fun hh => h (JValue.arr.inj hh))
  | .obj fs, .obj gs =>
    match JValue.decEqPairs fs gs with
    | isTrue h => isTrue (by rw [h])
    | isFalse h => isFalse (fun hh => h (JValue.obj.inj hh))
  | .null, .bool _ => isFalse (by intro h; cases h)
  | .null, .num _ => isFalse (by intro h; cases h)
  | .null, .str _ => isFalse (by intro h; cases h)
  | .null, .arr _ => isFalse (by intro h; cases h)
  | .null, .obj _ => isFalse (by intro h; cases h)
  | .bool _, .null => isFalse (by intro h; cases h)
  | .bool _, .num _ => isFalse (by intro h; cases h)
  | .bool _, .str _ => isFalse (by intro h; cases h)
  | .bool _, .arr _ => isFalse (by intro h; cases h)
  | .bool _, .obj _ => isFalse (by intro h; cases h)
  | .num _, .null => isFalse (by intro h; cases h)
  | .num _, .bool _ => isFalse (by intro h; cases h)
  | .num _, .str _ => isFalse (by intro h; cases h)
  | .num _, .arr _ => isFalse (by intro h; cases h)
  | .num _, .obj _ => isFalse (by intro h; cases h)
  | .str _, .null => isFalse (by intro h; cases h)
  | .str _, .bool _ => isFalse (by intro h; cases h)
  | .str _, .num _ => isFalse (by intro h; cases h)
  | .str _, .arr _ => isFalse (by intro h; cases h)
  | .str _, .obj _ => isFalse (by intro h; cases h)
  | .arr _, .null => isFalse (by intro h; cases h)
  | .arr _, .bool _ => isFalse (by intro h; cases h)
  | .arr _, .num _ => isFalse (by intro h; cases h)
  | .arr _, .str _ => isFalse (by intro h; cases h)
  | .arr _, .obj _ => isFalse (by intro h; cases h)
  | .obj _, .null => isFalse (by intro h; cases h)
  | .obj _, .bool _ => isFalse (by intro h; cases h)
  | .obj _, .num _ => isFalse (by intro h; cases h)
  | .obj _, .str _ => isFalse (by intro h; cases h)
  | .obj _, .arr _ => isFalse (by intro h; cases h)

/-- Decidable equality for lists of `JValue`. -/
def JValue.decEqList : (xs ys : List JValue) → Decidable (xs = ys)
  | [], [] => isTrue rfl
  | [], _ :: _ => isFalse (by intro h; cases h)
  | _ :: _, [] => isFalse (by intro h; cases h)
  | x :: xs, y :: ys =>
    match JValue.decEq x y, JValue.decEqList xs ys with
    | isTrue h1, isTrue h2 => isTrue (by rw [h1, h2])
    | isFalse h1, _ => isFalse (fun hh => h1 (List.cons.inj hh).1)
    | _, isFalse h2 => isFalse (fun hh => h2 (List.cons.inj hh).2)

/-- Decidable equality for association lists of `JValue`. -/
def JValue.decEqPairs : (xs ys : List (String × JValue)) → Decidable (xs = ys)
  | [], [] => isTrue rfl
  | [], _ :: _ => isFalse (by intro h; cases h)
  | _ :: _, [] => isFalse (by intro h; cases h)
  | (k, v) :: xs, (k', v') :: ys =>
    match (inferInstance : Decidable (k = k')) , JValue.decEq v v', JValue.decEqPairs xs ys with
    | isTrue h1, isTrue h2, isTrue h3 => isTrue (by rw [h1, h2, h3])
    | isFalse h1, _, _ =>
      isFalse (fun hh => h1 (congrArg (fun l => (l.headD (k, v)).1) hh))
    | _, isFalse h2, _ =>
      isFalse (fun hh => h2 (congrArg (fun l => (l.headD (k, v)).2) hh))
    | _, _, isFalse h3 => isFalse (fun hh => h3 (List.cons.inj hh).2)

end

instance : DecidableEq JValue := JValue.decEq

/-- `d.get(k)`: first binding of `k` in an ordered dict. -/
def dictGet : List (String × JValue) → String → Option JValue
  | [], _ => none
  | (k', v') :: rest, k => if k' = k then some v' else dictGet rest k

/-- `d[k] = v` on a Python dict: replace in place if the key exists
(keeping its original position), append otherwise. -/
def dictSet : List (String × JValue) → String → JValue → List (String × JValue)
  | [], k, v => [(k, v)]
  | (k', v') :: rest, k, v =>
    if k' = k then (k, v) :: rest else (k', v') :: dictSet rest k v

/-- A list of keys is pairwise distinct. -/
def keyListDistinct : List String → Bool
  | [] => true
  | k :: rest => rest.all (fun k2 => decide (k2 ≠ k)) && keyListDistinct rest

/-- The keys of an association list are pairwise distinct (always true of a
list that came from a Python dict). -/
def keysDistinct (d : List (String × JValue)) : Bool :=
  keyListDistinct (d.map Prod.fst)

/-- The job ledger `self._jobs`: job id → job record (a JSON object). -/
abbrev Ledger := List (String × JValue)

/-- `self._jobs[jid]`. -/
def ledgerGet (jobs : Ledger) (jid : String) : Option JValue := dictGet jobs jid

/-- `self._jobs[jid][field]`, when `jid` maps to a JSON object. -/
def ledgerField (jobs : Ledger) (jid field : String) : Option JValue :=
  match ledgerGet jobs jid with
  | some (.obj fs) => dictGet fs field
  | _ => none

/-- `self._jobs[jid][field] = v`: fails (Python `KeyError` / `TypeError`)
when `jid` is absent or its record is not a dict. -/
def ledgerSetField (jobs : Ledger) (jid field : String) (v : JValue) :
    Option Ledger :=
  match ledgerGet jobs jid with
  | some (.obj fs) => some (dictSet jobs jid (.obj (dictSet fs field v)))
  | _ => none

/-- Observable actions of the pipeline, in program order: provider calls,
ledger writes to disk (with the persisted snapshot), sleeps, log lines. -/
inductive Event where
  | statusQuery (jid : String) : Event
  | fetchCall (jid : String) (dest : String) : Event
  | submitCall (path : String) (lang : String) : Event
  | save (snapshot : Ledger) : Event
  | sleep (seconds : Int) : Event
  | logNoUnfinished : Event
  | logJobState (jid : String) (state : JValue) : Event
  | logSubmitted (path : String) (jid : String) : Event
  | logSubmitError (path : String) (err : String) : Event
  | logDownloaded (jid : String) (path : String) : Event
  | logFetchError (jid : String) (err : String) : Event
  deriving DecidableEq

/-- A pluggable transcription backend (`AbstractTranscriptionProvider`):
a record of pure functions; `Except.error` models a raised exception. -/
structure Provider where
  submit_job : String → String → Except String String
  job_status : String → Except String (List (String × JValue))
  fetch_result : String → String → Except String String

/-- Ambient effects used by the pipeline: `Path.expanduser().resolve()`
and `time.time()`. -/
structure Env where
  resolve : String → String
  now : Int

/-! ## `TranscriptionPipeline.poll` and helpers -/

/-- `state in {"Succeeded", "Failed", "succeeded", "failed"}`
(pipeline.py line 77). -/
def isTerminalStatusVal (v : JValue) : Bool :=
  decide (v = .str "Succeeded" ∨ v = .str "Failed" ∨
          v = .str "succeeded" ∨ v = .str "failed")

/-- ASCII lowercasing of one character (`str.lower`; every string this
model lowercases is ASCII). -/
def lowerChar (c : Char) : Char :=
  if 'A' ≤ c ∧ c ≤ 'Z' then Char.ofNat (c.toNat + 32) else c

/-- `s.lower()` on an ASCII string. -/
def pyLower (s : String) : String := String.mk (s.data.map lowerChar)

/-- `state.lower().startswith("succ")` (pipeline.py line 78); in Python this
is only reached when `state` is a string. -/
def lowerStartsWithSucc (v : JValue) : Bool :=
  match v with
  | .str s => "succ".data.isPrefixOf (s.data.map lowerChar)
  | _ => false

/-- `TranscriptionPipeline._download_result` (pipeline.py lines 88-95):
builds `f"{job_id}_transcript.json"`, calls `fetch_result`, and records the
returned path under `"result"`; any exception (including a `KeyError` from
the ledger write) is caught and logged. -/
def downloadResult (prov : Provider) (jobs : Ledger) (jid : String) :
    Ledger × List Event :=
  let dest := jid ++ "_transcript.json"
  match prov.fetch_result jid dest with
  | .error e => (jobs, [.fetchCall jid dest, .logFetchError jid e])
  | .ok path =>
    match ledgerSetField jobs jid "result" (.str path) with
    | some jobs' => (jobs', [.fetchCall jid dest, .logDownloaded jid path])
    | none => (jobs, [.fetchCall jid dest, .logFetchError jid "KeyError"])

/-- Result of one iteration of the inner `for job_id in list(unfinished)`
loop: `err` is an uncaught exception, `terminal` says whether the job was
popped from the pending working-set. -/
structure VisitResult where
  err : Option String
  jobs : Ledger
  terminal : Bool
  events : List Event

/-- The body of the `for job_id in list(unfinished)` loop in
`TranscriptionPipeline.poll` (pipeline.py lines 72-81): query status, store
the (unnormalized) state into the ledger entry, and on a terminal status
optionally download the result, pop the job and save the ledger. -/
def visitJob (prov : Provider) (jobs : Ledger) (jid : String) : VisitResult :=
  match prov.job_status jid with
  | .error e => ⟨some e, jobs, false, [.statusQuery jid]⟩
  | .ok status =>
    let state : JValue := (dictGet status "state").getD (.str "unknown")
    match ledgerSetField jobs jid "state" state with
    | none => ⟨some "KeyError", jobs, false, [.statusQuery jid]⟩
    | some jobs1 =>
      let ev0 : List Event := [.statusQuery jid, .logJobState jid state]
      if isTerminalStatusVal state then
        if lowerStartsWithSucc state then
          let (jobs2, ev1) := downloadResult prov jobs1 jid
          ⟨none, jobs2, true, ev0 ++ ev1 ++ [.save jobs2]⟩
        else
          ⟨none, jobs1, true, ev0 ++ [.save jobs1]⟩
      else
        ⟨none, jobs1, false, ev0⟩

/-- Result of one sweep over the current pending working-set: `pending` is
what remains of the working-set (jobs not popped, plus — when an exception
aborted the sweep — the ones not yet visited). -/
structure SweepResult where
  err : Option String
  jobs : Ledger
  pending : List String
  events : List Event

/-- One full sweep of `for job_id in list(unfinished): ...`
(pipeline.py lines 72-81), visiting the pending jobs in order. -/
def sweepJobs (prov : Provider) (jobs : Ledger) :
    List String → SweepResult
  | [] => ⟨none, jobs, [], []⟩
  | jid :: rest =>
    let v := visitJob prov jobs jid
    match v.err with
    | some e => ⟨some e, v.jobs, jid :: rest, v.events⟩
    | none =>
      let r := sweepJobs prov v.jobs rest
      ⟨r.err, r.jobs,
       (if v.terminal then r.pending else jid :: r.pending), v.events ++ r.events⟩

/-- Outcome of a `poll` invocation: `err` is an exception propagating out of
the call (the in-memory ledger keeps the mutations made before the raise,
exactly as the Python object would). -/
structure PollResult where
  err : Option String
  jobs : Ledger
  events : List Event

/-- The `while unfinished:` loop of `poll` (pipeline.py lines 71-83).
`fuel` bounds how many sweeps are observed: the Python loop is unbounded
and runs until the pending set is empty, so every theorem below quantifies
over the number of completed sweeps. -/
def pollLoop (prov : Provider) (interval : Int) :
    Nat → List String → Ledger → PollResult
  | 0, _, jobs => ⟨none, jobs, []⟩
  | Nat.succ fuel, pending, jobs =>
    if pending.isEmpty then ⟨none, jobs, []⟩
    else
      let s := sweepJobs prov jobs pending
      match s.err with
      | some e => ⟨some e, s.jobs, s.events⟩
      | none =>
        if s.pending.isEmpty then ⟨none, s.jobs, s.events⟩
        else
          let r := pollLoop prov interval fuel s.pending s.jobs
          ⟨r.err, r.jobs, s.events ++ [.sleep interval] ++ r.events⟩

/-- `meta.get("state") not in {"succeeded", "failed"}` — the comprehension
filter that builds `unfinished` (pipeline.py line 67).  Note it uses only
the lowercase spellings. -/
def entryPending (meta : List (String × JValue)) : Bool :=
  !(decide (dictGet meta "state" = some (.str "succeeded") ∨
            dictGet meta "state" = some (.str "failed")))

/-- Is this `JValue` a JSON object (Python dict)? -/
def JValue.isObj : JValue → Bool
  | .obj _ => true
  | _ => false

/-- `TranscriptionPipeline.poll` (pipeline.py lines 65-83).  The
`unfinished` dict comprehension calls `.get` on every record, which raises
`AttributeError` when a record is not a dict; the guard models that. -/
def poll (prov : Provider) (interval : Int) (fuel : Nat) (jobs : Ledger) :
    PollResult :=
  if jobs.all (fun e => e.2.isObj) then
    let pending := (jobs.filter (fun e =>
      match e.2 with
      | .obj meta => entryPending meta
      | _ => true)).map (fun e => e.1)
    if pending.isEmpty then ⟨none, jobs, [.logNoUnfinished]⟩
    else pollLoop prov interval fuel pending jobs
  else ⟨some "AttributeError", jobs, []⟩

/-- A sequence of `poll` invocations, each with its own provider behavior,
interval, and observed sweep count, threading the ledger through. -/
def pollSeq : Ledger → List (Provider × Int × Nat) → Ledger × List Event
  | jobs, [] => (jobs, [])
  | jobs, (prov, interval, fuel) :: rest =>
    let r := poll prov interval fuel jobs
    let (j2, evs) := pollSeq r.jobs rest
    (j2, r.events ++ evs)

/-! ## `TranscriptionPipeline.submit_single` / `submit_batch` -/

/-- Outcome of `submit_single`: on an error the provider exception
propagates to the caller and the ledger is untouched. -/
structure SubmitResult where
  err : Option String
  jobs : Ledger
  id : Option String
  events : List Event

/-- The ledger record created for a fresh submission
(pipeline.py lines 43-48). -/
def mkRecord (resolved lang : String) (now : Int) : JValue :=
  .obj [("file", .str resolved), ("submitted", .num now),
        ("language", .str lang), ("state", .str "submitted")]

/-- `TranscriptionPipeline.submit_single` (pipeline.py lines 39-51):
resolve the path, delegate to the provider, create the ledger record with
`state = "submitted"`, persist, log, return the id. -/
def submitSingle (env : Env) (prov : Provider) (jobs : Ledger)
    (media lang : String) : SubmitResult :=
  let resolved := env.resolve media
  match prov.submit_job resolved lang with
  | .error e => ⟨some e, jobs, none, [.submitCall resolved lang]⟩
  | .ok jid =>
    let jobs' := dictSet jobs jid (mkRecord resolved lang env.now)
    ⟨none, jobs', some jid,
     [.submitCall resolved lang, .save jobs', .logSubmitted resolved jid]⟩

/-- Split a character list on a separator character; never returns `[]`. -/
def splitOnChar (sep : Char) : List Char → List (List Char)
  | [] => [[]]
  | c :: rest =>
    match splitOnChar sep rest with
    | [] => [[]]
    | g :: gs => if c = sep then [] :: g :: gs else (c :: g) :: gs

/-- Index of the last `'.'` in a character list (`str.rfind('.')`). -/
def lastDotIndex : List Char → Option Nat
  | [] => none
  | c :: rest =>
    match lastDotIndex rest with
    | some i => some (i + 1)
    | none => if c = '.' then some (0 : Nat) else none

/-- `path.suffix` of `pathlib`: the extension of the final path component —
`name[i:]` for the last `.` at index `i` when `0 < i < len(name) - 1`,
else the empty string. -/
def pathSuffix (p : String) : String :=
  let name := (splitOnChar '/' p.data).getLastD []
  match lastDotIndex name with
  | some i =>
    if 0 < i ∧ i < name.length - 1 then String.mk (name.drop i) else ""
  | none => ""

/-- The supported media extension set (pipeline.py line 58). -/
def supportedSuffixes : List String := [".mp4", ".wav", ".mp3", ".mkv", ".flac"]

/-- `path.suffix.lower() in {".mp4", ".wav", ".mp3", ".mkv", ".flac"}`. -/
def isSupported (p : String) : Bool :=
  supportedSuffixes.any (fun s => s = pyLower (pathSuffix p))

/-- Outcome of `submit_batch`; there is no `err` field because the batch
loop catches every per-file exception. -/
structure BatchResult where
  jobs : Ledger
  ids : List String
  events : List Event

/-- The body of `TranscriptionPipeline.submit_batch` (pipeline.py lines
53-63), iterating over `directory.rglob("*")` — modelled by `entries`, the
enumerated paths in traversal order: filter by supported suffix, submit
each file, log-and-skip any per-file failure. -/
def submitBatch (env : Env) (prov : Provider) (jobs : Ledger)
    (entries : List String) (lang : String) : BatchResult :=
  match entries with
  | [] => ⟨jobs, [], []⟩
  | p :: rest =>
    if isSupported p then
      let r := submitSingle env prov jobs p lang
      match r.err, r.id with
      | none, some jid =>
        let b := submitBatch env prov r.jobs rest lang
        ⟨b.jobs, jid :: b.ids, r.events ++ b.events⟩
      | _, _ =>
        let b := submitBatch env prov r.jobs rest lang
        ⟨b.jobs, b.ids,
         r.events ++ [.logSubmitError p (r.err.getD "")] ++ b.events⟩
    else
      submitBatch env prov jobs rest lang

/-! ## The ledger file: `json.dumps(self._jobs, indent=2)` / `json.loads`

`_save_jobs` serializes the ledger with `json.dumps(..., indent=2)` and
`_load_jobs` parses the file back with `json.loads` (pipeline.py lines
99-105).  The codec below reproduces that format: two-space indentation,
`", "`-free item separators (`,` + newline under `indent`), `": "` key
separator.  Simplifications kept from the stdlib codec: characters outside
the basic escape table (`\" \\ \n \t \r`) are emitted verbatim instead of
`\uXXXX`-escaped, and numbers are integers; neither affects any record the
pipeline writes nor the round-trip property. -/

/-- Two spaces of indentation per nesting level (`indent=2`). -/
def indentChars (k : Nat) : List Char := List.replicate (2 * k) ' '

/-- Escape one character of a JSON string. -/
def escChar (c : Char) : List Char :=
  if c = '"' then ['\\', '"']
  else if c = '\\' then ['\\', '\\']
  else if c = '\n' then ['\\', 'n']
  else if c = '\t' then ['\\', 't']
  else if c = '\r' then ['\\', 'r']
  else [c]

/-- Escape the body of a JSON string. -/
def escapeChars : List Char → List Char
  | [] => []
  | c :: rest => escChar c ++ escapeChars rest

/-- A JSON string literal: `"..."` with escapes. -/
def encString (s : String) : List Char := '"' :: (escapeChars s.data ++ ['"'])

/-- The character of one decimal digit (`d < 10`). -/
def digitChar (d : Nat) : Char :=
  if d = 0 then '0' else if d = 1 then '1' else if d = 2 then '2'
  else if d = 3 then '3' else if d = 4 then '4' else if d = 5 then '5'
  else if d = 6 then '6' else if d = 7 then '7' else if d = 8 then '8'
  else '9'

/-- Decimal digits of `n`, least significant first (`[]` for `0`); the
first argument is fuel, always called with `fuel = n` so the recursion is
structural and kernel-reducible. -/
def natDigitsLEFuel : Nat → Nat → List Char
  | _, 0 => []
  | 0, _ + 1 => []
  | fuel + 1, n + 1 =>
    digitChar ((n + 1) % 10) :: natDigitsLEFuel fuel ((n + 1) / 10)

/-- Decimal digits of `n`, least significant first. -/
def natDigitsLE (n : Nat) : List Char := natDigitsLEFuel n n

/-- Decimal numeral of a natural number. -/
def encNat (n : Nat) : List Char :=
  if n = 0 then ['0'] else (natDigitsLE n).reverse

/-- Decimal numeral of an integer. -/
def encInt (i : Int) : List Char :=
  if i < 0 then '-' :: encNat i.natAbs else encNat i.natAbs

mutual

/-- `json.dumps(v, indent=2)` at nesting level `k` (the characters emitted
for a value occurring `k` levels deep). -/
def encValue (k : Nat) : JValue → List Char
  | .null => "null".data
  | .bool true => "true".data
  | .bool false => "false".data
  | .num i => encInt i
  | .str s => encString s
  | .arr [] => ['[', ']']
  | .arr (x :: xs) =>
    '[' :: '\n' :: (indentChars (k + 1) ++ encValue (k + 1) x ++
      encArrRest (k + 1) xs ++ '\n' :: (indentChars k ++ [']']))
  | .obj [] => ['{', '}']
  | .obj (p :: ps) =>
    '{' :: '\n' :: (indentChars (k + 1) ++ encPair (k + 1) p ++
      encObjRest (k + 1) ps ++ '\n' :: (indentChars k ++ ['}']))

/-- One `"key": value` item of an object. -/
def encPair (k : Nat) : String × JValue → List Char
  | (key, v) => encString key ++ ':' :: ' ' :: encValue k v

/-- `,`-separated remaining array items, each on its own indented line. -/
def encArrRest (k : Nat) : List JValue → List Char
  | [] => []
  | x :: xs =>
    ',' :: '\n' :: (indentChars k ++ encValue k x ++ encArrRest k xs)

/-- `,`-separated remaining object items, each on its own indented line. -/
def encObjRest (k : Nat) : List (String × JValue) → List Char
  | [] => []
  | p :: ps =>
    ',' :: '\n' :: (indentChars k ++ encPair k p ++ encObjRest k ps)

end

/-- `TranscriptionPipeline._save_jobs` (pipeline.py lines 104-105): the text
written to `jobs.json`. -/
def saveJobs (jobs : Ledger) : String := String.mk (encValue 0 (.obj jobs))

/-- JSON whitespace (`json.decoder`: space, tab, newline, carriage return). -/
def isWsChar (c : Char) : Bool :=
  decide (c = ' ' ∨ c = '\n' ∨ c = '\t' ∨ c = '\r')

/-- Skip leading whitespace. -/
def skipWs : List Char → List Char
  | [] => []
  | c :: rest => if isWsChar c then skipWs rest else c :: rest

/-- Unescape one backslash escape (the inverse of `escChar`). -/
def unescChar (c : Char) : Option Char :=
  if c = '"' then some '"'
  else if c = '\\' then some '\\'
  else if c = 'n' then some '\n'
  else if c = 't' then some '\t'
  else if c = 'r' then some '\r'
  else none

/-- Parse the body of a JSON string, starting after the opening quote;
returns the unescaped characters and the input after the closing quote. -/
def parseStrChars : List Char → Option (List Char × List Char)
  | [] => none
  | c :: rest =>
    if c = '"' then some ([], rest)
    else if c = '\\' then
      match rest with
      | [] => none
      | e :: rest2 =>
        match unescChar e with
        | none => none
        | some uc =>
          match parseStrChars rest2 with
          | none => none
          | some (s, r) => some (uc :: s, r)
    else
      match parseStrChars rest with
      | none => none
      | some (s, r) => some (c :: s, r)

/-- Is `c` a decimal digit? -/
def isDigitChar (c : Char) : Bool := decide ('0' ≤ c ∧ c ≤ '9')

/-- Consume a maximal run of digits, accumulating their value. -/
def parseDigitsAcc : Nat → List Char → Nat × List Char
  | acc, [] => (acc, [])
  | acc, c :: rest =>
    if isDigitChar c then parseDigitsAcc (acc * 10 + (c.toNat - 48)) rest
    else (acc, c :: rest)

/-- Parse an integer numeral (optional minus sign then digits). -/
def parseNumber : List Char → Option (JValue × List Char)
  | [] => none
  | c :: rest =>
    if c = '-' then
      match rest with
      | [] => none
      | d :: rest2 =>
        if isDigitChar d then
          let (n, r) := parseDigitsAcc 0 (d :: rest2)
          some (.num (-(n : Int)), r)
        else none
    else if isDigitChar c then
      let (n, r) := parseDigitsAcc 0 (c :: rest)
      some (.num (n : Int), r)
    else none

/-- Build a Python dict from parsed key/value pairs in order (`d[k] = v`
for each pair, so duplicate keys keep the first position, last value). -/
def buildDict (ps : List (String × JValue)) : List (String × JValue) :=
  ps.foldl (fun d p => dictSet d p.1 p.2) []

mutual

/-- Recursive-descent JSON value parser (`json.loads`), fueled so that the
recursion is structural and kernel-reducible; `parseJson` supplies ample
fuel.  Restrictions kept from the codec model: numbers are integers and
only the basic string escapes are understood. -/
def parseValue : Nat → List Char → Option (JValue × List Char)
  | 0, _ => none
  | Nat.succ fuel, cs =>
    match skipWs cs with
    | [] => none
    | c :: rest =>
      if c = '"' then
        match parseStrChars rest with
        | none => none
        | some (s, r) => some (.str (String.mk s), r)
      else if c = '{' then
        match skipWs rest with
        | [] => none
        | c2 :: r2 =>
          if c2 = '}' then some (.obj [], r2)
          else
            match parseObjLoop fuel (c2 :: r2) with
            | none => none
            | some (ps, r) => some (.obj (buildDict ps), r)
      else if c = '[' then
        match skipWs rest with
        | [] => none
        | c2 :: r2 =>
          if c2 = ']' then some (.arr [], r2)
          else
            match parseArrLoop fuel (c2 :: r2) with
            | none => none
            | some (xs, r) => some (.arr xs, r)
      else if c = 't' then
        match rest with
        | 'r' :: 'u' :: 'e' :: r => some (.bool true, r)
        | _ => none
      else if c = 'f' then
        match rest with
        | 'a' :: 'l' :: 's' :: 'e' :: r => some (.bool false, r)
        | _ => none
      else if c = 'n' then
        match rest with
        | 'u' :: 'l' :: 'l' :: r => some (.null, r)
        | _ => none
      else parseNumber (c :: rest)

/-- Parse the comma-separated items of a non-empty array, up to and
including the closing bracket. -/
def parseArrLoop : Nat → List Char → Option (List JValue × List Char)
  | 0, _ => none
  | Nat.succ fuel, cs =>
    match parseValue fuel cs with
    | none => none
    | some (v, r) =>
      match skipWs r with
      | [] => none
      | c :: r2 =>
        if c = ',' then
          match parseArrLoop fuel r2 with
          | none => none
          | some (xs, rr) => some (v :: xs, rr)
        else if c = ']' then some ([v], r2)
        else none

/-- Parse the comma-separated members of a non-empty object, up to and
including the closing brace. -/
def parseObjLoop : Nat → List Char → Option (List (String × JValue) × List Char)
  | 0, _ => none
  | Nat.succ fuel, cs =>
    match skipWs cs with
    | [] => none
    | c :: rest =>
      if c = '"' then
        match parseStrChars rest with
        | none => none
        | some (key, r1) =>
          match skipWs r1 with
          | [] => none
          | c2 :: r2 =>
            if c2 = ':' then
              match parseValue fuel r2 with
              | none => none
              | some (v, r3) =>
                match skipWs r3 with
                | [] => none
                | c3 :: r4 =>
                  if c3 = ',' then
                    match parseObjLoop fuel r4 with
                    | none => none
                    | some (ps, rr) => some ((String.mk key, v) :: ps, rr)
                  else if c3 = '}' then some ([(String.mk key, v)], r4)
                  else none
            else none
      else none

end

/-- `json.loads`: parse a complete document (allowing surrounding
whitespace, rejecting trailing garbage).  The fuel `2 * length + 2` is
enough for any parse: every two levels of recursion consume at least one
character. -/
def parseJson (s : String) : Option JValue :=
  match parseValue (2 * s.data.length + 2) s.data with
  | some (v, r) => if (skipWs r).isEmpty then some v else none
  | none => none

/-- `TranscriptionPipeline._load_jobs` (pipeline.py lines 99-102):
`file = none` models an absent `jobs.json` (first run), yielding the empty
mapping; otherwise the file's text is parsed, a malformed file raising
`json.JSONDecodeError`. -/
def loadJobs (file : Option String) : Except String JValue :=
  match file with
  | none => .ok (.obj [])
  | some s =>
    match parseJson s with
    | some v => .ok v
    | none => .error "JSONDecodeError"

mutual

/-- Well-formedness of a JSON value as produced by Python: every object's
keys are pairwise distinct (a Python dict cannot hold duplicates). -/
def JValue.wf : JValue → Bool
  | .null => true
  | .bool _ => true
  | .num _ => true
  | .str _ => true
  | .arr xs => JValue.wfList xs
  | .obj ps => keysDistinct ps && JValue.wfPairs ps

/-- All array items well-formed. -/
def JValue.wfList : List JValue → Bool
  | [] => true
  | x :: xs => JValue.wf x && JValue.wfList xs

/-- All object values well-formed. -/
def JValue.wfPairs : List (String × JValue) → Bool
  | [] => true
  | (_, v) :: ps => JValue.wf v && JValue.wfPairs ps

end

/-- Does the input not start with a digit (so a maximal digit run ends)? -/
def headNotDigit : List Char → Bool
  | [] => true
  | c :: _ => !(isDigitChar c)

/-! ## Basic dictionary lemmas -/

theorem dictGet_dictSet_same (d : List (String × JValue)) (k : String)
    (v : JValue) : dictGet (dictSet d k v) k = some v := by
  induction d with
  | nil => simp [dictGet, dictSet]
  | cons p rest ih =>
    obtain ⟨k', v'⟩ := p
    by_cases h : k' = k
    · simp [dictGet, dictSet, h]
    · simp [dictGet, dictSet, h, ih]

theorem dictGet_dictSet_other (d : List (String × JValue)) (k k' : String)
    (v : JValue) (h : k' ≠ k) :
    dictGet (dictSet d k v) k' = dictGet d k' := by
  induction d with
  | nil => simp [dictGet, dictSet, Ne.symm h]
  | cons p rest ih =>
    obtain ⟨k0, v0⟩ := p
    by_cases h0 : k0 = k
    · subst h0
      simp [dictGet, dictSet, Ne.symm h]
    · by_cases h1 : k0 = k'
      · simp [dictGet, dictSet, h0, h1, h]
      · simp [dictGet, dictSet, h0, h1, ih]

theorem dictSet_keys_of_mem (d : List (String × JValue)) (k : String)
    (v w : JValue) (h : dictGet d k = some w) :
    (dictSet d k v).map Prod.fst = d.map Prod.fst := by
  induction d with
  | nil => simp [dictGet] at h
  | cons p rest ih =>
    obtain ⟨k0, v0⟩ := p
    by_cases h0 : k0 = k
    · simp [dictSet, h0]
    · simp only [dictGet, h0, if_false] at h
      simp [dictSet, h0, ih h]

theorem dictGet_of_mem_distinct (d : List (String × JValue)) (k : String)
    (v : JValue) (hd : keyListDistinct (d.map Prod.fst) = true)
    (hm : (k, v) ∈ d) : dictGet d k = some v := by
  induction d with
  | nil => simp at hm
  | cons p rest ih =>
    obtain ⟨k0, v0⟩ := p
    simp only [List.map_cons, keyListDistinct, Bool.and_eq_true,
      List.all_eq_true, decide_eq_true_eq] at hd
    rcases List.mem_cons.mp hm with h | h
    · obtain ⟨rfl, rfl⟩ := Prod.mk.inj h
      simp [dictGet]
    · have hk : k ∈ rest.map Prod.fst := by
        simpa using List.mem_map_of_mem Prod.fst h
      have hne : k ≠ k0 := fun he => hd.1 k hk he
      simp only [dictGet, if_neg (Ne.symm hne)]
      exact ih hd.2 h

/-- Updating a field of an existing record: the record's other fields and
every other ledger entry are untouched, and the ledger's key list is
unchanged. -/
theorem ledgerSetField_spec (jobs : Ledger) (jid field : String) (v : JValue)
    (fs : List (String × JValue)) (hget : ledgerGet jobs jid = some (.obj fs)) :
    ledgerSetField jobs jid field v
      = some (dictSet jobs jid (.obj (dictSet fs field v))) := by
  simp [ledgerSetField, hget]

theorem ledgerSetField_get_same (jobs jobs' : Ledger) (jid field : String)
    (v : JValue) (h : ledgerSetField jobs jid field v = some jobs') :
    ledgerField jobs' jid field = some v := by
  unfold ledgerSetField at h
  cases hget : ledgerGet jobs jid with
  | none => rw [hget] at h; exact absurd h (by simp)
  | some w =>
    rw [hget] at h
    cases w with
    | obj fs =>
      simp only [Option.some.injEq] at h
      subst h
      simp [ledgerField, ledgerGet, dictGet_dictSet_same]
    | null => exact absurd h (by simp)
    | bool b => exact absurd h (by simp)
    | num n => exact absurd h (by simp)
    | str s => exact absurd h (by simp)
    | arr xs => exact absurd h (by simp)

theorem ledgerSetField_get_other_field (jobs jobs' : Ledger)
    (jid field field' : String) (v : JValue) (hne : field' ≠ field)
    (h : ledgerSetField jobs jid field v = some jobs') :
    ledgerField jobs' jid field' = ledgerField jobs jid field' := by
  unfold ledgerSetField at h
  cases hget : ledgerGet jobs jid with
  | none => rw [hget] at h; exact absurd h (by simp)
  | some w =>
    rw [hget] at h
    cases w with
    | obj fs =>
      simp only [Option.some.injEq] at h
      subst h
      simp only [ledgerField, ledgerGet]
      rw [dictGet_dictSet_same]
      rw [show dictGet jobs jid = some (JValue.obj fs) from hget]
      exact dictGet_dictSet_other _ _ _ _ hne
    | null => exact absurd h (by simp)
    | bool b => exact absurd h (by simp)
    | num n => exact absurd h (by simp)
    | str s => exact absurd h (by simp)
    | arr xs => exact absurd h (by simp)

theorem ledgerSetField_get_other (jobs jobs' : Ledger) (jid jid' field : String)
    (v : JValue) (hne : jid' ≠ jid)
    (h : ledgerSetField jobs jid field v = some jobs') :
    ledgerGet jobs' jid' = ledgerGet jobs jid' := by
  unfold ledgerSetField at h
  cases hget : ledgerGet jobs jid with
  | none => rw [hget] at h; exact absurd h (by simp)
  | some w =>
    rw [hget] at h
    cases w with
    | obj fs =>
      simp only [Option.some.injEq] at h
      subst h
      simp [ledgerGet, dictGet_dictSet_other _ _ _ _ hne]
    | null => exact absurd h (by simp)
    | bool b => exact absurd h (by simp)
    | num n => exact absurd h (by simp)
    | str s => exact absurd h (by simp)
    | arr xs => exact absurd h (by simp)

/-- Unfolding `visitJob` when the status query succeeds and the ledger entry
exists as a dict (the only situation arising in a real run). -/
theorem visitJob_ok (prov : Provider) (jobs : Ledger) (jid : String)
    (fs : List (String × JValue)) (status : List (String × JValue))
    (hget : ledgerGet jobs jid = some (.obj fs))
    (hst : prov.job_status jid = .ok status) :
    visitJob prov jobs jid =
      (let state := (dictGet status "state").getD (.str "unknown")
       let jobs1 := dictSet jobs jid (.obj (dictSet fs "state" state))
       let ev0 : List Event := [.statusQuery jid, .logJobState jid state]
       if isTerminalStatusVal state then
         if lowerStartsWithSucc state then
           let d := downloadResult prov jobs1 jid
           ⟨none, d.1, true, ev0 ++ d.2 ++ [.save d.1]⟩
         else ⟨none, jobs1, true, ev0 ++ [.save jobs1]⟩
       else ⟨none, jobs1, false, ev0⟩) := by
  unfold visitJob
  rw [hst]
  have hsf := ledgerSetField_spec jobs jid "state"
    ((dictGet status "state").getD (.str "unknown")) fs hget
  simp only [hsf]

/-- `_download_result` touches only the `"result"` field of the job's
record. -/
theorem downloadResult_field (prov : Provider) (jobs : Ledger)
    (jid f : String) (hne : f ≠ "result") :
    ledgerField (downloadResult prov jobs jid).1 jid f
      = ledgerField jobs jid f := by
  unfold downloadResult
  cases hf : prov.fetch_result jid (jid ++ "_transcript.json") with
  | error e => simp only [hf]
  | ok p =>
    simp only [hf]
    cases hs : ledgerSetField jobs jid "result" (.str p) with
    | none => simp only [hs]
    | some jobs' =>
      simp only [hs]
      exact ledgerSetField_get_other_field jobs jobs' jid "result" f _ hne hs

theorem ledgerSetField_keys (jobs jobs' : Ledger) (jid field : String)
    (v : JValue) (h : ledgerSetField jobs jid field v = some jobs') :
    jobs'.map Prod.fst = jobs.map Prod.fst := by
  unfold ledgerSetField at h
  cases hget : ledgerGet jobs jid with
  | none => rw [hget] at h; exact absurd h (by simp)
  | some w =>
    rw [hget] at h
    cases w with
    | obj fs =>
      simp only [Option.some.injEq] at h
      subst h
      exact dictSet_keys_of_mem _ _ _ _ hget
    | null => exact absurd h (by simp)
    | bool b => exact absurd h (by simp)
    | num n => exact absurd h (by simp)
    | str s => exact absurd h (by simp)
    | arr xs => exact absurd h (by simp)

/-- Unfolding one step of a sweep when the visit raised no exception: the
loop proceeds to the remaining pending jobs. -/
theorem sweepJobs_cons (prov : Provider) (jobs : Ledger) (jid : String)
    (rest : List String) (h : (visitJob prov jobs jid).err = none) :
    sweepJobs prov jobs (jid :: rest)
      = ⟨(sweepJobs prov (visitJob prov jobs jid).jobs rest).err,
         (sweepJobs prov (visitJob prov jobs jid).jobs rest).jobs,
         (if (visitJob prov jobs jid).terminal
           then (sweepJobs prov (visitJob prov jobs jid).jobs rest).pending
           else jid :: (sweepJobs prov (visitJob prov jobs jid).jobs rest).pending),
         (visitJob prov jobs jid).events
           ++ (sweepJobs prov (visitJob prov jobs jid).jobs rest).events⟩ := by
  rw [sweepJobs]
  rw [h]

/-! ## Round-trip lemmas for the JSON codec (claim C7) -/

theorem strMk_data (s : String) : String.mk s.data = s := rfl

theorem skipWs_not_ws (c : Char) (cs : List Char) (h : isWsChar c = false) :
    skipWs (c :: cs) = c :: cs := by
  simp [skipWs, h]

theorem skipWs_ws (c : Char) (cs : List Char) (h : isWsChar c = true) :
    skipWs (c :: cs) = skipWs cs := by
  simp [skipWs, h]

theorem skipWs_replicate_space (n : Nat) (cs : List Char) :
    skipWs (List.replicate n ' ' ++ cs) = skipWs cs := by
  induction n with
  | zero => simp
  | succ n ih =>
    rw [List.replicate_succ, List.cons_append, skipWs_ws _ _ (by decide)]
    exact ih

theorem skipWs_indent (k : Nat) (cs : List Char) :
    skipWs (indentChars k ++ cs) = skipWs cs :=
  skipWs_replicate_space (2 * k) cs

theorem skipWs_nl_indent (k : Nat) (cs : List Char) :
    skipWs ('\n' :: (indentChars k ++ cs)) = skipWs cs := by
  rw [skipWs_ws _ _ (by decide)]
  exact skipWs_indent k cs

/-- The JSON string escaper and unescaper are inverse. -/
theorem parseStr_escape (s : List Char) (rest : List Char) :
    parseStrChars (escapeChars s ++ ('"' :: rest)) = some (s, rest) := by
  induction s with
  | nil =>
    show parseStrChars ('"' :: rest) = some ([], rest)
    rw [parseStrChars.eq_def]
    simp
  | cons c cs ih =>
    simp only [escapeChars, escChar, List.append_assoc]
    by_cases h1 : c = '"'
    · subst h1
      simp only [if_pos rfl, List.cons_append, List.nil_append]
      rw [parseStrChars.eq_def]
      simp [unescChar, ih]
    · rw [if_neg h1]
      by_cases h2 : c = '\\'
      · subst h2
        simp only [if_pos rfl, List.cons_append, List.nil_append]
        rw [parseStrChars.eq_def]
        simp [unescChar, ih]
      · rw [if_neg h2]
        by_cases h3 : c = '\n'
        · subst h3
          simp only [if_pos rfl, List.cons_append, List.nil_append]
          rw [parseStrChars.eq_def]
          simp [unescChar, ih]
        · rw [if_neg h3]
          by_cases h4 : c = '\t'
          · subst h4
            simp only [if_pos rfl, List.cons_append, List.nil_append]
            rw [parseStrChars.eq_def]
            simp [unescChar, ih]
          · rw [if_neg h4]
            by_cases h5 : c = '\r'
            · subst h5
              simp only [if_pos rfl, List.cons_append, List.nil_append]
              rw [parseStrChars.eq_def]
              simp [unescChar, ih]
            · rw [if_neg h5]
              simp only [List.cons_append, List.nil_append]
              rw [parseStrChars.eq_def]
              simp [h1, h2, ih]

/-- All facts needed about a digit character. -/
theorem digitChar_props (d : Nat) (hd : d < 10) :
    isDigitChar (digitChar d) = true ∧ (digitChar d).toNat - 48 = d ∧
    isWsChar (digitChar d) = false ∧ digitChar d ≠ '"' ∧
    digitChar d ≠ '{' ∧ digitChar d ≠ '[' ∧ digitChar d ≠ 't' ∧
    digitChar d ≠ 'f' ∧ digitChar d ≠ 'n' ∧ digitChar d ≠ '-' ∧
    digitChar d ≠ ']' ∧ digitChar d ≠ '}' ∧ digitChar d ≠ ',' := by
  interval_cases d <;> exact ⟨by decide, by decide, by decide, by decide,
    by decide, by decide, by decide, by decide, by decide, by decide,
    by decide, by decide, by decide⟩

/-- Every emitted digit character is `digitChar d` for some `d < 10`. -/
theorem natDigitsLEFuel_mem (fuel n : Nat) (c : Char)
    (hm : c ∈ natDigitsLEFuel fuel n) : ∃ d, d < 10 ∧ c = digitChar d := by
  induction fuel generalizing n with
  | zero =>
    cases n with
    | zero => simp [natDigitsLEFuel] at hm
    | succ m => simp [natDigitsLEFuel] at hm
  | succ fuel ih =>
    cases n with
    | zero => simp [natDigitsLEFuel] at hm
    | succ m =>
      rw [natDigitsLEFuel] at hm
      rcases List.mem_cons.mp hm with h | h
      · exact ⟨(m + 1) % 10, Nat.mod_lt _ (by norm_num), h⟩
      · exact ih _ h

/-- For positive `n` the most-significant-digit-first numeral of `n` starts
with a digit character. -/
theorem natDigits_rev_head (fuel n : Nat) (hn : 0 < n) (hf : n ≤ fuel) :
    ∃ d tl, d < 10 ∧ (natDigitsLEFuel fuel n).reverse = digitChar d :: tl := by
  induction fuel generalizing n with
  | zero => omega
  | succ fuel ih =>
    cases n with
    | zero => omega
    | succ m =>
      rw [natDigitsLEFuel, List.reverse_cons]
      by_cases h0 : (m + 1) / 10 = 0
      · rw [h0]
        exact ⟨(m + 1) % 10, [], Nat.mod_lt _ (by norm_num), by
          simp [natDigitsLEFuel]⟩
      · have hle : (m + 1) / 10 ≤ fuel := by
          have := Nat.div_lt_self (Nat.succ_pos m) (by norm_num : 1 < 10)
          omega
        obtain ⟨d, tl, hd, htl⟩ := ih ((m + 1) / 10) (Nat.pos_of_ne_zero h0) hle
        exact ⟨d, tl ++ [digitChar ((m + 1) % 10)], hd, by rw [htl]; rfl⟩

/-- Consuming the numeral of `n` shifts the accumulator. -/
theorem parseDigitsAcc_numeral (fuel : Nat) :
    ∀ n acc rest, n ≤ fuel →
    parseDigitsAcc acc ((natDigitsLEFuel fuel n).reverse ++ rest)
      = parseDigitsAcc (acc * 10 ^ (natDigitsLEFuel fuel n).length + n) rest := by
  induction fuel with
  | zero =>
    intro n acc rest hn
    interval_cases n
    simp [natDigitsLEFuel]
  | succ fuel ih =>
    intro n acc rest hn
    cases n with
    | zero => simp [natDigitsLEFuel]
    | succ m =>
      rw [natDigitsLEFuel, List.reverse_cons, List.append_assoc]
      have hle : (m + 1) / 10 ≤ fuel := by
        have := Nat.div_lt_self (Nat.succ_pos m) (by norm_num : 1 < 10)
        omega
      rw [ih ((m + 1) / 10) acc _ hle]
      have hd := digitChar_props ((m + 1) % 10) (Nat.mod_lt _ (by norm_num))
      rw [List.singleton_append, parseDigitsAcc, if_pos hd.1, hd.2.1]
      have hlen : (digitChar ((m + 1) % 10) :: natDigitsLEFuel fuel ((m + 1) / 10)).length
          = (natDigitsLEFuel fuel ((m + 1) / 10)).length + 1 := rfl
      rw [hlen, pow_succ, ← Nat.mul_assoc]
      have hdm := Nat.div_add_mod (m + 1) 10
      have : (acc * 10 ^ (natDigitsLEFuel fuel ((m + 1) / 10)).length + (m + 1) / 10) * 10
            + (m + 1) % 10
          = acc * 10 ^ (natDigitsLEFuel fuel ((m + 1) / 10)).length * 10 + (m + 1) := by
        omega
      rw [this]

/-- A maximal digit run ends at a non-digit. -/
theorem parseDigitsAcc_stop (acc : Nat) (rest : List Char)
    (h : headNotDigit rest = true) : parseDigitsAcc acc rest = (acc, rest) := by
  cases rest with
  | nil => rfl
  | cons c cs =>
    simp only [headNotDigit, Bool.not_eq_true'] at h
    simp [parseDigitsAcc, h]

theorem parseNat_run (n : Nat) (rest : List Char) (h : headNotDigit rest = true) :
    parseDigitsAcc 0 ((natDigitsLEFuel n n).reverse ++ rest) = (n, rest) := by
  rw [parseDigitsAcc_numeral n n 0 rest le_rfl, parseDigitsAcc_stop _ _ h]
  simp

theorem parseNumber_encInt (i : Int) (rest : List Char)
    (h : headNotDigit rest = true) :
    parseNumber (encInt i ++ rest) = some (.num i, rest) := by
  by_cases hi : i < 0
  · have hn : 0 < i.natAbs := by omega
    have hival : -((i.natAbs : Int)) = i := by omega
    rw [encInt, if_pos hi, encNat, if_neg (by omega : ¬ i.natAbs = 0)]
    obtain ⟨d, tl, hd, htl⟩ := natDigits_rev_head i.natAbs i.natAbs hn le_rfl
    rw [show natDigitsLE i.natAbs = natDigitsLEFuel i.natAbs i.natAbs from rfl,
      htl]
    have hrun : parseDigitsAcc 0 (digitChar d :: (tl ++ rest))
        = (i.natAbs, rest) := by
      rw [show digitChar d :: (tl ++ rest)
          = (natDigitsLEFuel i.natAbs i.natAbs).reverse ++ rest by
        rw [htl]; rfl]
      exact parseNat_run i.natAbs rest h
    rw [List.cons_append, List.cons_append, parseNumber.eq_def]
    simp only [List.cons_append]
    simp [hrun, (digitChar_props d hd).1]
    rw [abs_of_nonpos (by omega : i ≤ 0), neg_neg]
  · have hival : ((i.natAbs : Int)) = i := by omega
    rw [encInt, if_neg hi, encNat]
    by_cases h0 : i.natAbs = 0
    · rw [if_pos h0]
      have hz : i = 0 := by omega
      subst hz
      rw [parseNumber.eq_def]
      have hstop := parseDigitsAcc_stop 0 rest h
      simp only [List.cons_append, List.nil_append]
      simp [parseDigitsAcc, isDigitChar, hstop]
    · rw [if_neg h0]
      obtain ⟨d, tl, hd, htl⟩ := natDigits_rev_head i.natAbs i.natAbs
        (Nat.pos_of_ne_zero h0) le_rfl
      rw [show natDigitsLE i.natAbs = natDigitsLEFuel i.natAbs i.natAbs from rfl,
        htl]
      have hrun : parseDigitsAcc 0 (digitChar d :: (tl ++ rest))
          = (i.natAbs, rest) := by
        rw [show digitChar d :: (tl ++ rest)
            = (natDigitsLEFuel i.natAbs i.natAbs).reverse ++ rest by
          rw [htl]; rfl]
        exact parseNat_run i.natAbs rest h
      rw [List.cons_append, parseNumber.eq_def]
      have hp := digitChar_props d hd
      simp [hrun, hp.1, hp.2.2.2.2.2.2.2.2.2.1, hival]

/-- The first character emitted for any value: never whitespace, never a
closer or separator. -/
theorem encValue_head (k : Nat) (v : JValue) :
    ∃ c tl, encValue k v = c :: tl ∧ isWsChar c = false ∧
      c ≠ ']' ∧ c ≠ '}' ∧ c ≠ ',' := by
  cases v with
  | null => exact ⟨'n', _, rfl, by decide, by decide, by decide, by decide⟩
  | bool b =>
    cases b with
    | true => exact ⟨'t', _, rfl, by decide, by decide, by decide, by decide⟩
    | false => exact ⟨'f', _, rfl, by decide, by decide, by decide, by decide⟩
  | str s => exact ⟨'"', _, rfl, by decide, by decide, by decide, by decide⟩
  | arr xs =>
    cases xs with
    | nil => exact ⟨'[', _, rfl, by decide, by decide, by decide, by decide⟩
    | cons x xs =>
      exact ⟨'[', _, rfl, by decide, by decide, by decide, by decide⟩
  | obj ps =>
    cases ps with
    | nil => exact ⟨'{', _, rfl, by decide, by decide, by decide, by decide⟩
    | cons p ps =>
      exact ⟨'{', _, rfl, by decide, by decide, by decide, by decide⟩
  | num i =>
    by_cases hi : i < 0
    · exact ⟨'-', _, by rw [encValue, encInt, if_pos hi], by decide,
        by decide, by decide, by decide⟩
    · by_cases h0 : i.natAbs = 0
      · refine ⟨'0', [], ?_, by decide, by decide, by decide, by decide⟩
        rw [encValue, encInt, if_neg hi, encNat, if_pos h0]
      · obtain ⟨d, tl, hd, htl⟩ := natDigits_rev_head i.natAbs i.natAbs
          (Nat.pos_of_ne_zero h0) le_rfl
        have hp := digitChar_props d hd
        refine ⟨digitChar d, tl, ?_, hp.2.2.1, hp.2.2.2.2.2.2.2.2.2.2.1,
          hp.2.2.2.2.2.2.2.2.2.2.2.1, hp.2.2.2.2.2.2.2.2.2.2.2.2⟩
        rw [encValue, encInt, if_neg hi, encNat, if_neg h0]
        exact htl

theorem skipWs_encValue (k : Nat) (v : JValue) (rest : List Char) :
    skipWs (encValue k v ++ rest) = encValue k v ++ rest := by
  obtain ⟨c, tl, hc, hw, _, _, _⟩ := encValue_head k v
  rw [hc, List.cons_append, skipWs_not_ws c _ hw]

theorem parseValue_ws_nl_indent (fuel k : Nat) (X : List Char) :
    parseValue fuel ('\n' :: (indentChars k ++ X)) = parseValue fuel X := by
  cases fuel with
  | zero => rfl
  | succ f =>
    rw [parseValue.eq_def, parseValue.eq_def]
    simp only [skipWs_nl_indent]

theorem parseValue_ws_space (fuel : Nat) (X : List Char) :
    parseValue fuel (' ' :: X) = parseValue fuel X := by
  cases fuel with
  | zero => rfl
  | succ f =>
    rw [parseValue.eq_def, parseValue.eq_def]
    simp only [skipWs_ws ' ' X (by decide)]

theorem parseArrLoop_ws_nl_indent (fuel k : Nat) (X : List Char) :
    parseArrLoop fuel ('\n' :: (indentChars k ++ X)) = parseArrLoop fuel X := by
  cases fuel with
  | zero => rfl
  | succ f =>
    rw [parseArrLoop.eq_def, parseArrLoop.eq_def]
    simp only [parseValue_ws_nl_indent]

theorem parseObjLoop_ws_nl_indent (fuel k : Nat) (X : List Char) :
    parseObjLoop fuel ('\n' :: (indentChars k ++ X)) = parseObjLoop fuel X := by
  cases fuel with
  | zero => rfl
  | succ f =>
    rw [parseObjLoop.eq_def, parseObjLoop.eq_def]
    simp only [skipWs_nl_indent]

theorem dictSet_fresh (d : List (String × JValue)) (k : String) (v : JValue)
    (h : ∀ q ∈ d, q.1 ≠ k) : dictSet d k v = d ++ [(k, v)] := by
  induction d with
  | nil => rfl
  | cons q rest ih =>
    obtain ⟨k0, v0⟩ := q
    have hk0 : k0 ≠ k := h (k0, v0) (List.mem_cons_self _ _)
    rw [dictSet, if_neg hk0, List.cons_append, ih]
    intro q hq
    exact h q (List.mem_cons_of_mem _ hq)

theorem buildDict_go (ps : List (String × JValue)) :
    ∀ acc, keysDistinct ps = true →
    (∀ p ∈ ps, ∀ q ∈ acc, q.1 ≠ p.1) →
    ps.foldl (fun d p => dictSet d p.1 p.2) acc = acc ++ ps := by
  induction ps with
  | nil => intro acc _ _; simp
  | cons p rest ih =>
    intro acc hdist hfresh
    obtain ⟨k, v⟩ := p
    simp only [keysDistinct, List.map_cons, keyListDistinct,
      Bool.and_eq_true, List.all_eq_true, decide_eq_true_eq] at hdist
    rw [List.foldl_cons]
    have h1 : dictSet acc k v = acc ++ [(k, v)] :=
      dictSet_fresh acc k v (fun q hq => hfresh (k, v) (List.mem_cons_self _ _) q hq)
    rw [h1, ih (acc ++ [(k, v)]) (by
        simp only [keysDistinct]
        exact hdist.2) ?fresh]
    · rw [List.append_assoc]
      rfl
    case fresh =>
      intro p hp q hq
      rcases List.mem_append.mp hq with hqa | hqk
      · exact hfresh p (List.mem_cons_of_mem _ hp) q hqa
      · rcases List.mem_singleton.mp hqk with rfl
        have : p.1 ∈ rest.map Prod.fst := by
          simpa using List.mem_map_of_mem Prod.fst hp
        exact fun he => hdist.1 p.1 this he.symm

theorem buildDict_of_distinct (ps : List (String × JValue))
    (h : keysDistinct ps = true) : buildDict ps = ps := by
  rw [buildDict, buildDict_go ps [] h (by intro p _ q hq; simp at hq)]
  rfl

theorem not_digit_of_ws (c : Char) (h : isWsChar c = true) :
    isDigitChar c = false := by
  rcases of_decide_eq_true h with rfl | rfl | rfl | rfl <;> decide

theorem headNotDigit_of_skipWs (tail : List Char) (c : Char)
    (rest : List Char) (hs : skipWs tail = c :: rest)
    (hc : isDigitChar c = false) : headNotDigit tail = true := by
  cases tail with
  | nil => simp [skipWs] at hs
  | cons t ts =>
    by_cases hw : isWsChar t = true
    · simp [headNotDigit, not_digit_of_ws t hw]
    · rw [skipWs_not_ws t ts (by simpa using hw)] at hs
      injection hs with h1 _
      subst h1
      simp [headNotDigit, hc]

/-- `parseValue` dispatches a numeral to `parseNumber`. -/
theorem parseValue_encInt (fuel : Nat) (i : Int) (rest : List Char)
    (h : headNotDigit rest = true) :
    parseValue (fuel + 1) (encInt i ++ rest) = some (.num i, rest) := by
  have hdisp : ∃ c tl, encInt i = c :: tl ∧ isWsChar c = false ∧
      c ≠ '"' ∧ c ≠ '{' ∧ c ≠ '[' ∧ c ≠ 't' ∧ c ≠ 'f' ∧ c ≠ 'n' := by
    by_cases hi : i < 0
    · exact ⟨'-', _, by rw [encInt, if_pos hi], by decide, by decide,
        by decide, by decide, by decide, by decide, by decide⟩
    · by_cases h0 : i.natAbs = 0
      · exact ⟨'0', [], by rw [encInt, if_neg hi, encNat, if_pos h0],
          by decide, by decide, by decide, by decide, by decide, by decide,
          by decide⟩
      · obtain ⟨d, tl, hd, htl⟩ := natDigits_rev_head i.natAbs i.natAbs
          (Nat.pos_of_ne_zero h0) le_rfl
        have hp := digitChar_props d hd
        exact ⟨digitChar d, tl,
          by rw [encInt, if_neg hi, encNat, if_neg h0]; exact htl,
          hp.2.2.1, hp.2.2.2.1, hp.2.2.2.2.1, hp.2.2.2.2.2.1,
          hp.2.2.2.2.2.2.1, hp.2.2.2.2.2.2.2.1, hp.2.2.2.2.2.2.2.2.1⟩
  obtain ⟨c, tl, hc, hw, h1, h2, h3, h4, h5, h6⟩ := hdisp
  rw [parseValue.eq_def, hc]
  simp only [List.cons_append]
  rw [skipWs_not_ws c _ hw]
  simp only [h1, h2, h3, h4, h5, h6, if_false]
  rw [← List.cons_append, ← hc]
  exact parseNumber_encInt i rest h

theorem parseValue_lbrack (fuel : Nat) (cs : List Char) (c2 : Char)
    (r2 : List Char) (hs : skipWs cs = c2 :: r2) (hne : c2 ≠ ']') :
    parseValue (fuel + 1) ('[' :: cs)
      = match parseArrLoop fuel (c2 :: r2) with
        | none => none
        | some (xs, r) => some (.arr xs, r) := by
  simp only [parseValue.eq_def]
  rw [skipWs_not_ws _ _ (by decide)]
  simp [hs, hne]

theorem parseValue_lbrace (fuel : Nat) (cs : List Char) (c2 : Char)
    (r2 : List Char) (hs : skipWs cs = c2 :: r2) (hne : c2 ≠ '}') :
    parseValue (fuel + 1) ('{' :: cs)
      = match parseObjLoop fuel (c2 :: r2) with
        | none => none
        | some (ps, r) => some (.obj (buildDict ps), r) := by
  simp only [parseValue.eq_def]
  rw [skipWs_not_ws _ _ (by decide)]
  simp [hs, hne]

theorem parseArrLoop_step (fuel : Nat) (cs : List Char) (v : JValue)
    (r : List Char) (c : Char) (r2 : List Char)
    (hv : parseValue fuel cs = some (v, r)) (hs : skipWs r = c :: r2) :
    parseArrLoop (fuel + 1) cs
      = (if c = ',' then
          match parseArrLoop fuel r2 with
          | none => none
          | some (xs, rr) => some (v :: xs, rr)
        else if c = ']' then some ([v], r2)
        else none) := by
  rw [parseArrLoop.eq_def]
  simp [hv, hs]

theorem parseObjLoop_step (fuel : Nat) (cs : List Char) (key : List Char)
    (r1 : List Char) (v : JValue) (r3 : List Char) (c3 : Char)
    (r4 : List Char) (body : List Char) (r2 : List Char)
    (h0 : skipWs cs = '"' :: body)
    (h1 : parseStrChars body = some (key, r1))
    (h2 : skipWs r1 = ':' :: r2)
    (h3 : parseValue fuel r2 = some (v, r3))
    (h4 : skipWs r3 = c3 :: r4) :
    parseObjLoop (fuel + 1) cs
      = (if c3 = ',' then
          match parseObjLoop fuel r4 with
          | none => none
          | some (ps, rr) => some ((String.mk key, v) :: ps, rr)
        else if c3 = '}' then some ([(String.mk key, v)], r4)
        else none) := by
  rw [parseObjLoop.eq_def]
  simp [h0, h1, h2, h3, h4]

/-- The codec round-trip, by induction on parser fuel: parsing the encoding
of a well-formed value succeeds and consumes exactly the encoding. -/
theorem parse_enc : ∀ fuel : Nat,
    (∀ k v rest, (encValue k v).length ≤ fuel → JValue.wf v = true →
      headNotDigit rest = true →
      parseValue fuel (encValue k v ++ rest) = some (v, rest)) ∧
    (∀ k (x : JValue) xs tail rest,
      (encValue k x).length + (encArrRest k xs).length + 1 ≤ fuel →
      JValue.wf x = true → JValue.wfList xs = true →
      skipWs tail = ']' :: rest →
      parseArrLoop fuel (encValue k x ++ (encArrRest k xs ++ tail))
        = some (x :: xs, rest)) ∧
    (∀ k key (v : JValue) ps tail rest,
      (encPair k (key, v)).length + (encObjRest k ps).length + 1 ≤ fuel →
      JValue.wf v = true → JValue.wfPairs ps = true →
      skipWs tail = '}' :: rest →
      parseObjLoop fuel (encPair k (key, v) ++ (encObjRest k ps ++ tail))
        = some ((key, v) :: ps, rest)) := by
  intro fuel
  induction fuel with
  | zero =>
    refine ⟨?_, ?_, ?_⟩
    · intro k v rest hlen _ _
      obtain ⟨c, tl, hc, _⟩ := encValue_head k v
      rw [hc] at hlen
      simp at hlen
    · intro k x xs tail rest hlen _ _ _
      omega
    · intro k key v ps tail rest hlen _ _ _
      omega
  | succ fuel ih =>
    obtain ⟨ihP, ihQ, ihR⟩ := ih
    refine ⟨?_, ?_, ?_⟩
    -- parseValue on an encoded value
    · intro k v rest hlen hwf hnd
      cases v with
      | null =>
        rw [parseValue.eq_def]
        simp only [encValue]
        simp only [List.cons_append, List.nil_append]
        rw [skipWs_not_ws _ _ (by decide)]
        simp
      | bool b =>
        cases b with
        | true =>
          rw [parseValue.eq_def]
          simp only [encValue]
          simp only [List.cons_append, List.nil_append]
          rw [skipWs_not_ws _ _ (by decide)]
          simp
        | false =>
          rw [parseValue.eq_def]
          simp only [encValue]
          simp only [List.cons_append, List.nil_append]
          rw [skipWs_not_ws _ _ (by decide)]
          simp
      | num i => exact parseValue_encInt fuel i rest hnd
      | str s =>
        rw [parseValue.eq_def]
        simp only [encValue, encString, List.cons_append, List.append_assoc,
          List.singleton_append]
        rw [skipWs_not_ws _ _ (by decide)]
        simp [parseStr_escape, strMk_data]
      | arr xs =>
        cases xs with
        | nil =>
          rw [parseValue.eq_def]
          simp only [encValue, List.cons_append, List.nil_append]
          rw [skipWs_not_ws _ _ (by decide)]
          simp [skipWs_not_ws _ rest (by decide : isWsChar ']' = false)]
        | cons x xs =>
          have hwx : JValue.wf x = true ∧ JValue.wfList xs = true := by
            have h := hwf
            rw [JValue.wf, JValue.wfList, Bool.and_eq_true] at h
            exact h
          have henc : encValue k (.arr (x :: xs)) ++ rest
              = '[' :: ('\n' :: (indentChars (k + 1) ++
                (encValue (k + 1) x ++ (encArrRest (k + 1) xs ++
                  ('\n' :: (indentChars k ++ (']' :: rest))))))) := by
            simp [encValue]
          obtain ⟨c0, tl0, hc0, hw0, hbr0, _, _⟩ := encValue_head (k + 1) x
          have hs : skipWs ('\n' :: (indentChars (k + 1) ++
              (encValue (k + 1) x ++ (encArrRest (k + 1) xs ++
                ('\n' :: (indentChars k ++ (']' :: rest)))))))
              = c0 :: (tl0 ++ (encArrRest (k + 1) xs ++
                ('\n' :: (indentChars k ++ (']' :: rest))))) := by
            rw [skipWs_nl_indent, skipWs_encValue, hc0, List.cons_append]
          rw [henc, parseValue_lbrack fuel _ c0 _ hs hbr0,
            ← List.cons_append, ← hc0]
          have hlen2 : (encValue (k + 1) x).length
              + (encArrRest (k + 1) xs).length + 1 ≤ fuel := by
            rw [show encValue k (.arr (x :: xs))
                = '[' :: '\n' :: (indentChars (k + 1) ++
                  encValue (k + 1) x ++ encArrRest (k + 1) xs ++
                  '\n' :: (indentChars k ++ [']'])) from rfl] at hlen
            simp only [List.length_cons, List.length_append, indentChars,
              List.length_replicate, List.length_singleton] at hlen
            omega
          have htail : skipWs ('\n' :: (indentChars k ++ (']' :: rest)))
              = ']' :: rest := by
            rw [skipWs_nl_indent]
            exact skipWs_not_ws _ _ (by decide)
          rw [ihQ (k + 1) x xs _ rest hlen2 hwx.1 hwx.2 htail]
      | obj ps =>
        cases ps with
        | nil =>
          rw [parseValue.eq_def]
          simp only [encValue, List.cons_append, List.nil_append]
          rw [skipWs_not_ws _ _ (by decide)]
          simp [skipWs_not_ws _ rest (by decide : isWsChar '}' = false)]
        | cons p ps =>
          obtain ⟨key, v⟩ := p
          have hwx : keysDistinct ((key, v) :: ps) = true ∧
              JValue.wf v = true ∧ JValue.wfPairs ps = true := by
            have h := hwf
            rw [JValue.wf, Bool.and_eq_true, JValue.wfPairs,
              Bool.and_eq_true] at h
            exact ⟨h.1, h.2.1, h.2.2⟩
          have henc : encValue k (.obj ((key, v) :: ps)) ++ rest
              = '{' :: ('\n' :: (indentChars (k + 1) ++
                (encPair (k + 1) (key, v) ++ (encObjRest (k + 1) ps ++
                  ('\n' :: (indentChars k ++ ('}' :: rest))))))) := by
            simp [encValue]
          have hs : skipWs ('\n' :: (indentChars (k + 1) ++
              (encPair (k + 1) (key, v) ++ (encObjRest (k + 1) ps ++
                ('\n' :: (indentChars k ++ ('}' :: rest)))))))
              = '"' :: ((escapeChars key.data ++
                ('"' :: (':' :: (' ' :: encValue (k + 1) v)))) ++
                (encObjRest (k + 1) ps ++
                  ('\n' :: (indentChars k ++ ('}' :: rest))))) := by
            rw [skipWs_nl_indent]
            have : encPair (k + 1) (key, v)
                = '"' :: (escapeChars key.data ++
                  ('"' :: (':' :: (' ' :: encValue (k + 1) v)))) := by
              rw [encPair, encString]
              simp
            rw [this, List.cons_append]
            exact skipWs_not_ws _ _ (by decide)
          rw [henc, parseValue_lbrace fuel _ _ _ hs (by decide),
            ← List.cons_append]
          have hback : '"' :: (escapeChars key.data ++
                ('"' :: (':' :: (' ' :: encValue (k + 1) v))))
              = encPair (k + 1) (key, v) := by
            rw [encPair, encString]
            simp
          rw [hback]
          have hlen2 : (encPair (k + 1) (key, v)).length
              + (encObjRest (k + 1) ps).length + 1 ≤ fuel := by
            rw [show encValue k (.obj ((key, v) :: ps))
                = '{' :: '\n' :: (indentChars (k + 1) ++
                  encPair (k + 1) (key, v) ++ encObjRest (k + 1) ps ++
                  '\n' :: (indentChars k ++ ['}'])) from rfl] at hlen
            simp only [List.length_cons, List.length_append, indentChars,
              List.length_replicate, List.length_singleton] at hlen
            omega
          have htail : skipWs ('\n' :: (indentChars k ++ ('}' :: rest)))
              = '}' :: rest := by
            rw [skipWs_nl_indent]
            exact skipWs_not_ws _ _ (by decide)
          rw [ihR (k + 1) key v ps _ rest hlen2 hwx.2.1 hwx.2.2 htail]
          simp [buildDict_of_distinct _ hwx.1]
    -- parseArrLoop on encoded items
    · intro k x xs tail rest hlen hwx hwxs htail
      have hnd : headNotDigit (encArrRest k xs ++ tail) = true := by
        cases xs with
        | nil =>
          simp only [encArrRest, List.nil_append]
          exact headNotDigit_of_skipWs tail ']' rest htail (by decide)
        | cons y ys => rfl
      have hv : parseValue fuel
          (encValue k x ++ (encArrRest k xs ++ tail))
          = some (x, encArrRest k xs ++ tail) :=
        ihP k x _ (by omega) hwx hnd
      cases xs with
      | nil =>
        have hs : skipWs (encArrRest k [] ++ tail) = ']' :: rest := by
          simp only [encArrRest, List.nil_append]
          exact htail
        rw [parseArrLoop_step fuel _ x _ ']' rest hv hs]
        simp
      | cons y ys =>
        have hwys : JValue.wf y = true ∧ JValue.wfList ys = true := by
          rw [JValue.wfList, Bool.and_eq_true] at hwxs
          exact hwxs
        have hshape : encArrRest k (y :: ys) ++ tail
            = ',' :: ('\n' :: (indentChars k ++
              (encValue k y ++ (encArrRest k ys ++ tail)))) := by
          simp [encArrRest]
        have hs : skipWs (encArrRest k (y :: ys) ++ tail)
            = ',' :: ('\n' :: (indentChars k ++
              (encValue k y ++ (encArrRest k ys ++ tail)))) := by
          rw [hshape]
          exact skipWs_not_ws _ _ (by decide)
        rw [parseArrLoop_step fuel _ x _ ',' _ hv hs]
        rw [if_pos rfl, parseArrLoop_ws_nl_indent]
        have hlen2 : (encValue k y).length + (encArrRest k ys).length + 1
            ≤ fuel := by
          rw [show encArrRest k (y :: ys)
              = ',' :: '\n' :: (indentChars k ++ encValue k y ++
                encArrRest k ys) from rfl] at hlen
          simp only [List.length_cons, List.length_append, indentChars,
            List.length_replicate] at hlen
          omega
        rw [ihQ k y ys tail rest hlen2 hwys.1 hwys.2 htail]
    -- parseObjLoop on encoded members
    · intro k key v ps tail rest hlen hwv hwps htail
      have hshape : encPair k (key, v) ++ (encObjRest k ps ++ tail)
          = '"' :: (escapeChars key.data ++
            ('"' :: (':' :: (' ' :: (encValue k v ++
              (encObjRest k ps ++ tail)))))) := by
        rw [encPair, encString]
        simp
      have h0 : skipWs (encPair k (key, v) ++ (encObjRest k ps ++ tail))
          = '"' :: (escapeChars key.data ++
            ('"' :: (':' :: (' ' :: (encValue k v ++
              (encObjRest k ps ++ tail)))))) := by
        rw [hshape]
        exact skipWs_not_ws _ _ (by decide)
      have h1 : parseStrChars (escapeChars key.data ++
            ('"' :: (':' :: (' ' :: (encValue k v ++
              (encObjRest k ps ++ tail))))))
          = some (key.data, ':' :: (' ' :: (encValue k v ++
              (encObjRest k ps ++ tail)))) :=
        parseStr_escape key.data _
      have h2 : skipWs (':' :: (' ' :: (encValue k v ++
            (encObjRest k ps ++ tail))))
          = ':' :: (' ' :: (encValue k v ++ (encObjRest k ps ++ tail))) :=
        skipWs_not_ws _ _ (by decide)
      have hnd : headNotDigit (encObjRest k ps ++ tail) = true := by
        cases ps with
        | nil =>
          simp only [encObjRest, List.nil_append]
          exact headNotDigit_of_skipWs tail '}' rest htail (by decide)
        | cons q qs => rfl
      have h3 : parseValue fuel (' ' :: (encValue k v ++
            (encObjRest k ps ++ tail)))
          = some (v, encObjRest k ps ++ tail) := by
        rw [parseValue_ws_space]
        refine ihP k v _ ?_ hwv hnd
        rw [show encPair k (key, v)
            = encString key ++ ':' :: ' ' :: encValue k v from rfl] at hlen
        simp only [List.length_append, List.length_cons] at hlen
        omega
      cases ps with
      | nil =>
        have h4 : skipWs (encObjRest k [] ++ tail) = '}' :: rest := by
          simp only [encObjRest, List.nil_append]
          exact htail
        rw [parseObjLoop_step fuel _ key.data _ v _ '}' rest _ _ h0 h1 h2 h3 h4]
        simp [strMk_data]
      | cons q qs =>
        obtain ⟨k2, v2⟩ := q
        have hwqs : JValue.wf v2 = true ∧ JValue.wfPairs qs = true := by
          rw [JValue.wfPairs, Bool.and_eq_true] at hwps
          exact hwps
        have hshape2 : encObjRest k ((k2, v2) :: qs) ++ tail
            = ',' :: ('\n' :: (indentChars k ++
              (encPair k (k2, v2) ++ (encObjRest k qs ++ tail)))) := by
          simp [encObjRest]
        have h4 : skipWs (encObjRest k ((k2, v2) :: qs) ++ tail)
            = ',' :: ('\n' :: (indentChars k ++
              (encPair k (k2, v2) ++ (encObjRest k qs ++ tail)))) := by
          rw [hshape2]
          exact skipWs_not_ws _ _ (by decide)
        rw [parseObjLoop_step fuel _ key.data _ v _ ',' _ _ _ h0 h1 h2 h3 h4]
        rw [if_pos rfl, parseObjLoop_ws_nl_indent]
        have hlen2 : (encPair k (k2, v2)).length
            + (encObjRest k qs).length + 1 ≤ fuel := by
          rw [show encObjRest k ((k2, v2) :: qs)
              = ',' :: '\n' :: (indentChars k ++ encPair k (k2, v2) ++
                encObjRest k qs) from rfl] at hlen
          simp only [List.length_cons, List.length_append, indentChars,
            List.length_replicate] at hlen
          omega
        rw [ihR k k2 v2 qs tail rest hlen2 hwqs.1 hwqs.2 htail]

/-! ## Claim theorems -/

/-- C8: if no ledger entry has a non-terminal state, `poll` (with any
interval and any number of observed sweeps) returns immediately: the result
is exactly "no error, the ledger unchanged, a single `No unfinished jobs.`
log line" — in particular no `job_status` or `fetch_result` call, no sleep,
and no ledger write to disk. -/
theorem poll_noop_when_all_terminal (prov : Provider) (interval : Int)
    (fuel : Nat) (jobs : Ledger)
    (hterm : ∀ e ∈ jobs, ∃ meta, e.2 = JValue.obj meta ∧
      entryPending meta = false) :
    poll prov interval fuel jobs = ⟨none, jobs, [.logNoUnfinished]⟩ ∧
    (poll prov interval fuel jobs).jobs = jobs ∧
    (∀ ev ∈ (poll prov interval fuel jobs).events, ev = Event.logNoUnfinished) := by
  have hobj : jobs.all (fun e => e.2.isObj) = true := by
    rw [List.all_eq_true]
    intro e he
    obtain ⟨meta, hm, _⟩ := hterm e he
    rw [hm]
    rfl
  have hfil : jobs.filter (fun e =>
      match e.2 with
      | .obj meta => entryPending meta
      | _ => true) = [] := by
    rw [List.filter_eq_nil_iff]
    intro e he
    obtain ⟨meta, hm, hp⟩ := hterm e he
    rw [hm]
    simp [hp]
  have hp : poll prov interval fuel jobs = ⟨none, jobs, [.logNoUnfinished]⟩ := by
    unfold poll
    rw [if_pos hobj]
    simp only [hfil, List.map_nil, List.isEmpty_nil, if_pos]
  refine ⟨hp, ?_, ?_⟩
  · rw [hp]
  · rw [hp]
    intro ev hev
    simpa using hev

/-- C8 witness: a ledger with one succeeded and one failed entry makes
`poll` a no-op. -/
theorem poll_noop_when_all_terminal_witness :
    poll ⟨fun _ _ => .ok "", fun _ => .ok [], fun _ _ => .ok ""⟩ 30 5
        [("a", .obj [("state", .str "succeeded")]),
         ("b", .obj [("state", .str "failed")])]
      = ⟨none, [("a", .obj [("state", .str "succeeded")]),
                ("b", .obj [("state", .str "failed")])], [.logNoUnfinished]⟩ := by
  refine (poll_noop_when_all_terminal _ 30 5 _ ?_).1
  intro e he
  simp only [List.mem_cons, List.not_mem_nil, or_false] at he
  rcases he with rfl | rfl
  · exact ⟨_, rfl, by decide⟩
  · exact ⟨_, rfl, by decide⟩

/-- C10: when the status dict returned by `job_status` has no `"state"`
key, the ledger entry's state is set to the literal string `"unknown"` and
the job is treated as non-terminal: it is not popped from the pending set,
and the visit's events are exactly the status query and a log line — no
`fetch_result` call and no ledger save. -/
theorem visitJob_missing_state_key (prov : Provider) (jobs : Ledger)
    (jid : String) (fs status : List (String × JValue))
    (hget : ledgerGet jobs jid = some (.obj fs))
    (hst : prov.job_status jid = .ok status)
    (hnone : dictGet status "state" = none) :
    (visitJob prov jobs jid).err = none ∧
    (visitJob prov jobs jid).terminal = false ∧
    ledgerField (visitJob prov jobs jid).jobs jid "state"
      = some (.str "unknown") ∧
    (visitJob prov jobs jid).events
      = [.statusQuery jid, .logJobState jid (.str "unknown")] ∧
    (∀ rest, jid ∈ (sweepJobs prov jobs (jid :: rest)).pending) := by
  have hv : visitJob prov jobs jid =
      ⟨none, dictSet jobs jid (.obj (dictSet fs "state" (.str "unknown"))),
       false, [.statusQuery jid, .logJobState jid (.str "unknown")]⟩ := by
    rw [visitJob_ok prov jobs jid fs status hget hst]
    simp [hnone, show isTerminalStatusVal (JValue.str "unknown") = false from rfl]
  refine ⟨by rw [hv], by rw [hv], ?_, by rw [hv], ?_⟩
  · rw [hv]
    simp only [ledgerField, ledgerGet, dictGet_dictSet_same,
      dictGet_dictSet_same fs "state" (.str "unknown")]
  · intro rest
    unfold sweepJobs
    rw [hv]
    simp

/-- C10 witness: a provider whose status dict lacks `"state"`. -/
theorem visitJob_missing_state_key_witness :
    (visitJob ⟨fun _ _ => .ok "", fun _ => .ok [("other", .num 1)],
        fun _ _ => .ok ""⟩
      [("j1", .obj [("state", .str "queued")])] "j1").terminal = false ∧
    ledgerField (visitJob ⟨fun _ _ => .ok "", fun _ => .ok [("other", .num 1)],
        fun _ _ => .ok ""⟩
      [("j1", .obj [("state", .str "queued")])] "j1").jobs "j1" "state"
      = some (.str "unknown") := by
  have h := visitJob_missing_state_key
    ⟨fun _ _ => .ok "", fun _ => .ok [("other", .num 1)], fun _ _ => .ok ""⟩
    [("j1", .obj [("state", .str "queued")])] "j1"
    [("state", .str "queued")] [("other", .num 1)]
    (by decide) rfl (by decide)
  exact ⟨h.2.1, h.2.2.1⟩

/-- C2 counterexample: with a provider returning the Azure-cased vendor
string `"Succeeded"`, the state value written into the ledger entry is
`"Succeeded"` — not a member of the canonical lowercase set
`{queued, running, succeeded, failed}`.  No normalization happens on
the write (pipeline.py lines 74-75 store the vendor value verbatim). -/
theorem poll_writes_unnormalized_state :
    ledgerField (poll ⟨fun _ _ => .ok "", fun _ => .ok [("state", .str "Succeeded")],
        fun _ _ => .ok "p"⟩ 30 1
      [("j1", .obj [("state", .str "queued")])]).jobs "j1" "state"
      = some (.str "Succeeded") ∧
    "Succeeded" ∉ (["queued", "running", "succeeded", "failed"] : List String) := by
  decide

/-- C2 (amended): the state value written into the ledger entry is the
vendor's `state` value verbatim (defaulting to `"unknown"` when the key is
absent); no case normalization is applied. -/
theorem visitJob_state_verbatim (prov : Provider) (jobs : Ledger)
    (jid : String) (fs status : List (String × JValue))
    (hget : ledgerGet jobs jid = some (.obj fs))
    (hst : prov.job_status jid = .ok status) :
    (visitJob prov jobs jid).err = none ∧
    ledgerField (visitJob prov jobs jid).jobs jid "state"
      = some ((dictGet status "state").getD (.str "unknown")) := by
  rw [visitJob_ok prov jobs jid fs status hget hst]
  set state := (dictGet status "state").getD (.str "unknown") with hstate
  have hget1 : ledgerGet (dictSet jobs jid (.obj (dictSet fs "state" state)))
      jid = some (.obj (dictSet fs "state" state)) := by
    simp [ledgerGet, dictGet_dictSet_same]
  have hfield : ledgerField (dictSet jobs jid (.obj (dictSet fs "state" state)))
      jid "state" = some state := by
    simp [ledgerField, hget1, dictGet_dictSet_same]
  by_cases ht : isTerminalStatusVal state = true
  · by_cases hsucc : lowerStartsWithSucc state = true
    · simp only [ht, hsucc, if_true]
      refine ⟨by simp, ?_⟩
      rw [downloadResult_field prov _ jid "state" (by decide)]
      exact hfield
    · simp only [ht, if_true, hsucc, if_false, Bool.false_eq_true]
      exact ⟨by simp, by simpa using hfield⟩
  · simp only [ht, if_false, Bool.false_eq_true]
    exact ⟨by simp, by simpa using hfield⟩

/-- C2 amended witness. -/
theorem visitJob_state_verbatim_witness :
    ledgerField (visitJob ⟨fun _ _ => .ok "",
        fun _ => .ok [("state", .str "NotStarted")], fun _ _ => .ok ""⟩
      [("j1", .obj [("state", .str "queued")])] "j1").jobs "j1" "state"
      = some (.str "NotStarted") := by
  have h := visitJob_state_verbatim
    ⟨fun _ _ => .ok "", fun _ => .ok [("state", .str "NotStarted")],
     fun _ _ => .ok ""⟩
    [("j1", .obj [("state", .str "queued")])] "j1"
    [("state", .str "queued")] [("state", .str "NotStarted")]
    (by decide) rfl
  exact h.2

/-- C3 counterexample: a job whose status resolves to the non-terminal
`"running"`: its ledger entry's state is updated, yet the sweep's full
event list contains no ledger save at all — the ledger is NOT persisted
after each job's status is resolved; it is only saved on terminal
transitions. -/
theorem poll_no_save_on_nonterminal :
    (poll ⟨fun _ _ => .ok "", fun _ => .ok [("state", .str "running")],
        fun _ _ => .ok ""⟩ 30 1
      [("j1", .obj [("state", .str "queued")])]).events
      = [.statusQuery "j1", .logJobState "j1" (.str "running"), .sleep 30] ∧
    ledgerField (poll ⟨fun _ _ => .ok "", fun _ => .ok [("state", .str "running")],
        fun _ _ => .ok ""⟩ 30 1
      [("j1", .obj [("state", .str "queued")])]).jobs "j1" "state"
      = some (.str "running") ∧
    (∀ s, Event.save s ∉ (poll ⟨fun _ _ => .ok "",
        fun _ => .ok [("state", .str "running")], fun _ _ => .ok ""⟩ 30 1
      [("j1", .obj [("state", .str "queued")])]).events) := by
  refine ⟨by decide, by decide, ?_⟩
  intro s hs
  rw [show (poll ⟨fun _ _ => .ok "", fun _ => .ok [("state", .str "running")],
      fun _ _ => .ok ""⟩ 30 1 [("j1", .obj [("state", .str "queued")])]).events
      = [.statusQuery "j1", .logJobState "j1" (.str "running"), .sleep 30]
    from by decide] at hs
  simp at hs

/-- C3 (amended): within a sweep, the ledger is persisted immediately after
a job's status is resolved exactly when that status is terminal (and the
persisted snapshot is the visit's final ledger); a non-terminal status
updates the entry in memory only, with no save at that point. -/
theorem visitJob_save_iff_terminal (prov : Provider) (jobs : Ledger)
    (jid : String) (fs status : List (String × JValue))
    (hget : ledgerGet jobs jid = some (.obj fs))
    (hst : prov.job_status jid = .ok status) :
    (isTerminalStatusVal ((dictGet status "state").getD (.str "unknown")) = true →
      (visitJob prov jobs jid).terminal = true ∧
      Event.save (visitJob prov jobs jid).jobs ∈ (visitJob prov jobs jid).events) ∧
    (isTerminalStatusVal ((dictGet status "state").getD (.str "unknown")) = false →
      (visitJob prov jobs jid).terminal = false ∧
      ∀ s, Event.save s ∉ (visitJob prov jobs jid).events) := by
  rw [visitJob_ok prov jobs jid fs status hget hst]
  set state := (dictGet status "state").getD (.str "unknown") with hstate
  constructor
  · intro ht
    by_cases hsucc : lowerStartsWithSucc state = true
    · simp only [ht, hsucc, if_pos]
      simp
    · simp only [ht, if_pos, hsucc, if_neg]
      simp
  · intro ht
    rw [if_neg (by rw [ht]; exact Bool.false_ne_true)]
    refine ⟨rfl, ?_⟩
    intro s hs
    simp at hs

/-- C3 amended witness: a terminal `"failed"` status produces an immediate
save of the updated ledger. -/
theorem visitJob_save_iff_terminal_witness :
    (visitJob ⟨fun _ _ => .ok "", fun _ => .ok [("state", .str "failed")],
        fun _ _ => .ok ""⟩
      [("j1", .obj [("state", .str "running")])] "j1").terminal = true ∧
    Event.save (visitJob ⟨fun _ _ => .ok "", fun _ => .ok [("state", .str "failed")],
        fun _ _ => .ok ""⟩
      [("j1", .obj [("state", .str "running")])] "j1").jobs
      ∈ (visitJob ⟨fun _ _ => .ok "", fun _ => .ok [("state", .str "failed")],
          fun _ _ => .ok ""⟩
        [("j1", .obj [("state", .str "running")])] "j1").events := by
  exact (visitJob_save_iff_terminal
    ⟨fun _ _ => .ok "", fun _ => .ok [("state", .str "failed")],
     fun _ _ => .ok ""⟩
    [("j1", .obj [("state", .str "running")])] "j1"
    [("state", .str "running")] [("state", .str "failed")]
    (by decide) rfl).1 (by decide)

/-- C5: for a job whose status resolves to `"succeeded"` (and whose record
has no `"result"` yet), whatever `fetch_result` does: the entry's state is
`"succeeded"` afterwards, the `"result"` field is present iff the download
returned without error (and then holds the returned path), on a download
error the failure is logged and the `"result"` field stays absent, the job
is popped from the pending set with an immediate ledger save, and the sweep
continues over the remaining pending jobs instead of aborting. -/
theorem visitJob_succeeded_download_isolation (prov : Provider)
    (jobs : Ledger) (jid : String) (fs status : List (String × JValue))
    (hget : ledgerGet jobs jid = some (.obj fs))
    (hst : prov.job_status jid = .ok status)
    (hstate : dictGet status "state" = some (.str "succeeded"))
    (hnores : dictGet fs "result" = none) :
    (visitJob prov jobs jid).err = none ∧
    ledgerField (visitJob prov jobs jid).jobs jid "state"
      = some (.str "succeeded") ∧
    (∀ p, ledgerField (visitJob prov jobs jid).jobs jid "result"
        = some (.str p)
      ↔ prov.fetch_result jid (jid ++ "_transcript.json") = .ok p) ∧
    (∀ e, prov.fetch_result jid (jid ++ "_transcript.json") = .error e →
      ledgerField (visitJob prov jobs jid).jobs jid "result" = none ∧
      Event.logFetchError jid e ∈ (visitJob prov jobs jid).events) ∧
    (visitJob prov jobs jid).terminal = true ∧
    Event.save (visitJob prov jobs jid).jobs ∈ (visitJob prov jobs jid).events ∧
    (∀ rest, sweepJobs prov jobs (jid :: rest)
      = ⟨(sweepJobs prov (visitJob prov jobs jid).jobs rest).err,
         (sweepJobs prov (visitJob prov jobs jid).jobs rest).jobs,
         (sweepJobs prov (visitJob prov jobs jid).jobs rest).pending,
         (visitJob prov jobs jid).events
           ++ (sweepJobs prov (visitJob prov jobs jid).jobs rest).events⟩) := by
  have hv0 := visitJob_ok prov jobs jid fs status hget hst
  rw [hstate] at hv0
  simp only [Option.getD_some,
    show isTerminalStatusVal (.str "succeeded") = true from rfl,
    show lowerStartsWithSucc (.str "succeeded") = true from rfl,
    if_true] at hv0
  set jobs1 := dictSet jobs jid (.obj (dictSet fs "state" (.str "succeeded")))
    with hjobs1
  have hget1 : ledgerGet jobs1 jid
      = some (.obj (dictSet fs "state" (.str "succeeded"))) := by
    simp [hjobs1, ledgerGet, dictGet_dictSet_same]
  have hstate1 : ledgerField jobs1 jid "state" = some (.str "succeeded") := by
    simp [ledgerField, hget1, dictGet_dictSet_same]
  have hres1 : ledgerField jobs1 jid "result" = none := by
    simp only [ledgerField, hget1]
    rw [dictGet_dictSet_other fs "state" "result" _ (by decide)]
    exact hnores
  cases hf : prov.fetch_result jid (jid ++ "_transcript.json") with
  | error e =>
    have hd : downloadResult prov jobs1 jid
        = (jobs1, [.fetchCall jid (jid ++ "_transcript.json"),
                   .logFetchError jid e]) := by
      unfold downloadResult
      simp only [hf]
    rw [hd] at hv0
    refine ⟨by rw [hv0], ?_, ?_, ?_, by rw [hv0], ?_, ?_⟩
    · rw [hv0]; exact hstate1
    · intro p
      rw [hv0]
      simp only [hres1, hf]
      constructor
      · intro h; exact absurd h (by simp)
      · intro h; exact absurd h (by simp)
    · intro e' he'
      injection he' with he'
      subst he'
      rw [hv0]
      refine ⟨hres1, by simp⟩
    · rw [hv0]; simp
    · intro rest
      rw [sweepJobs_cons prov jobs jid rest (by rw [hv0])]
      rw [hv0]
      simp
  | ok p =>
    have hsf : ledgerSetField jobs1 jid "result" (.str p)
        = some (dictSet jobs1 jid
            (.obj (dictSet (dictSet fs "state" (.str "succeeded")) "result"
              (.str p)))) := by
      exact ledgerSetField_spec jobs1 jid "result" _ _ hget1
    have hd : downloadResult prov jobs1 jid
        = (dictSet jobs1 jid
            (.obj (dictSet (dictSet fs "state" (.str "succeeded")) "result"
              (.str p))),
           [.fetchCall jid (jid ++ "_transcript.json"), .logDownloaded jid p]) := by
      unfold downloadResult
      simp only [hf, hsf]
    rw [hd] at hv0
    set jobs2 := dictSet jobs1 jid
      (.obj (dictSet (dictSet fs "state" (.str "succeeded")) "result"
        (.str p))) with hjobs2
    have hget2 : ledgerGet jobs2 jid
        = some (.obj (dictSet (dictSet fs "state" (.str "succeeded")) "result"
          (.str p))) := by
      simp [hjobs2, ledgerGet, dictGet_dictSet_same]
    have hstate2 : ledgerField jobs2 jid "state" = some (.str "succeeded") := by
      simp only [ledgerField, hget2]
      rw [dictGet_dictSet_other _ "result" "state" _ (by decide)]
      exact dictGet_dictSet_same fs "state" (.str "succeeded")
    have hres2 : ledgerField jobs2 jid "result" = some (.str p) := by
      simp only [ledgerField, hget2]
      exact dictGet_dictSet_same _ "result" (.str p)
    refine ⟨by rw [hv0], by rw [hv0]; exact hstate2, ?_, ?_, by rw [hv0], ?_, ?_⟩
    · intro p'
      rw [hv0]
      simp only [hres2, hf]
      constructor
      · intro h
        injection h with h
        cases h
        rfl
      · intro h
        injection h with h
        rw [h]
    · intro e' he'
      exact absurd he' (by simp)
    · rw [hv0]; simp
    · intro rest
      rw [sweepJobs_cons prov jobs jid rest (by rw [hv0])]
      rw [hv0]
      simp

/-- C5 witness: a failing download leaves a `"succeeded"`, `result`-less
entry, pops the job and saves the ledger. -/
theorem visitJob_succeeded_download_isolation_witness :
    ledgerField (visitJob ⟨fun _ _ => .ok "",
        fun _ => .ok [("state", .str "succeeded")], fun _ _ => .error "net"⟩
      [("j1", .obj [("state", .str "running")])] "j1").jobs "j1" "state"
      = some (.str "succeeded") ∧
    ledgerField (visitJob ⟨fun _ _ => .ok "",
        fun _ => .ok [("state", .str "succeeded")], fun _ _ => .error "net"⟩
      [("j1", .obj [("state", .str "running")])] "j1").jobs "j1" "result"
      = none ∧
    (visitJob ⟨fun _ _ => .ok "",
        fun _ => .ok [("state", .str "succeeded")], fun _ _ => .error "net"⟩
      [("j1", .obj [("state", .str "running")])] "j1").terminal = true := by
  have h := visitJob_succeeded_download_isolation
    ⟨fun _ _ => .ok "", fun _ => .ok [("state", .str "succeeded")],
     fun _ _ => .error "net"⟩
    [("j1", .obj [("state", .str "running")])] "j1"
    [("state", .str "running")] [("state", .str "succeeded")]
    (by decide) rfl (by decide) (by decide)
  exact ⟨h.2.1, (h.2.2.2.1 "net" rfl).1, h.2.2.2.2.1⟩

/-- C6: `submit_single` — if the provider's `submit_job` raises, the
exception propagates to the caller and the ledger is untouched (no record,
no save, in memory or on disk); if it returns an id, a record with
`state = "submitted"` is created under that id and the ledger is persisted
(the save's snapshot being the new ledger) before the id is returned. -/
theorem submitSingle_spec (env : Env) (prov : Provider) (jobs : Ledger)
    (media lang : String) :
    (∀ e, prov.submit_job (env.resolve media) lang = .error e →
      (submitSingle env prov jobs media lang).err = some e ∧
      (submitSingle env prov jobs media lang).jobs = jobs ∧
      (submitSingle env prov jobs media lang).id = none ∧
      (∀ s, Event.save s ∉ (submitSingle env prov jobs media lang).events)) ∧
    (∀ jid, prov.submit_job (env.resolve media) lang = .ok jid →
      (submitSingle env prov jobs media lang).err = none ∧
      (submitSingle env prov jobs media lang).id = some jid ∧
      (submitSingle env prov jobs media lang).jobs
        = dictSet jobs jid (mkRecord (env.resolve media) lang env.now) ∧
      ledgerField (submitSingle env prov jobs media lang).jobs jid "state"
        = some (.str "submitted") ∧
      Event.save (submitSingle env prov jobs media lang).jobs
        ∈ (submitSingle env prov jobs media lang).events) := by
  constructor
  · intro e he
    have hs : submitSingle env prov jobs media lang
        = ⟨some e, jobs, none, [.submitCall (env.resolve media) lang]⟩ := by
      unfold submitSingle
      simp only [he]
    refine ⟨by rw [hs], by rw [hs], by rw [hs], ?_⟩
    intro s h
    rw [hs] at h
    simp at h
  · intro jid hj
    have hs : submitSingle env prov jobs media lang
        = ⟨none, dictSet jobs jid (mkRecord (env.resolve media) lang env.now),
           some jid,
           [.submitCall (env.resolve media) lang,
            .save (dictSet jobs jid (mkRecord (env.resolve media) lang env.now)),
            .logSubmitted (env.resolve media) jid]⟩ := by
      unfold submitSingle
      simp only [hj]
    refine ⟨by rw [hs], by rw [hs], by rw [hs], ?_, by rw [hs]; simp⟩
    rw [hs]
    simp only [ledgerField, ledgerGet, dictGet_dictSet_same, mkRecord]
    rfl

/-- C6 witness. -/
theorem submitSingle_spec_witness :
    (submitSingle ⟨fun p => p, 1000⟩
        ⟨fun _ _ => .error "auth", fun _ => .ok [], fun _ _ => .ok ""⟩
        [] "/a/v.mp4" "en-US").err = some "auth" ∧
    (submitSingle ⟨fun p => p, 1000⟩
        ⟨fun _ _ => .error "auth", fun _ => .ok [], fun _ _ => .ok ""⟩
        [] "/a/v.mp4" "en-US").jobs = [] ∧
    (submitSingle ⟨fun p => p, 1000⟩
        ⟨fun _ _ => .ok "job7", fun _ => .ok [], fun _ _ => .ok ""⟩
        [] "/a/v.mp4" "en-US").id = some "job7" ∧
    ledgerField (submitSingle ⟨fun p => p, 1000⟩
        ⟨fun _ _ => .ok "job7", fun _ => .ok [], fun _ _ => .ok ""⟩
        [] "/a/v.mp4" "en-US").jobs "job7" "state" = some (.str "submitted") := by
  have h1 := (submitSingle_spec ⟨fun p => p, 1000⟩
    ⟨fun _ _ => .error "auth", fun _ => .ok [], fun _ _ => .ok ""⟩
    [] "/a/v.mp4" "en-US").1 "auth" rfl
  have h2 := (submitSingle_spec ⟨fun p => p, 1000⟩
    ⟨fun _ _ => .ok "job7", fun _ => .ok [], fun _ _ => .ok ""⟩
    [] "/a/v.mp4" "en-US").2 "job7" rfl
  exact ⟨h1.1, h1.2.1, h2.2.1, h2.2.2.2.1⟩


/-- C4: `submit_batch` isolates per-file failures.  It never raises (its
result type has no error component, matching the blanket `except` in
pipeline.py lines 61-62); the returned list is exactly the job ids of the
supported files whose submission succeeded, in traversal order; and every
supported file whose submission raised contributes a logged error instead
of an id. -/
theorem submitBatch_isolates_failures (env : Env) (prov : Provider)
    (jobs : Ledger) (entries : List String) (lang : String) :
    (submitBatch env prov jobs entries lang).ids
      = entries.filterMap (fun p =>
          if isSupported p then (prov.submit_job (env.resolve p) lang).toOption
          else none) ∧
    (∀ p ∈ entries, isSupported p = true →
      ∀ e, prov.submit_job (env.resolve p) lang = .error e →
        Event.logSubmitError p e ∈ (submitBatch env prov jobs entries lang).events) := by
  induction entries generalizing jobs with
  | nil => exact ⟨rfl, by intro p hp; simp at hp⟩
  | cons q rest ih =>
    by_cases hq : isSupported q = true
    · cases hj : prov.submit_job (env.resolve q) lang with
      | error e =>
        have hr : submitSingle env prov jobs q lang
            = ⟨some e, jobs, none, [.submitCall (env.resolve q) lang]⟩ := by
          unfold submitSingle
          simp only [hj]
        have hb : submitBatch env prov jobs (q :: rest) lang
            = ⟨(submitBatch env prov jobs rest lang).jobs,
               (submitBatch env prov jobs rest lang).ids,
               [.submitCall (env.resolve q) lang]
                 ++ [.logSubmitError q e]
                 ++ (submitBatch env prov jobs rest lang).events⟩ := by
          conv_lhs => rw [submitBatch]
          rw [if_pos hq, hr]
          rfl
        constructor
        · rw [hb]
          simp only [List.filterMap_cons, hq, if_true, hj]
          exact (ih jobs).1
        · intro p hp hps e' he'
          rcases List.mem_cons.mp hp with rfl | hp'
          · rw [hj] at he'
            injection he' with he'
            subst he'
            rw [hb]
            simp
          · rw [hb]
            have := (ih jobs).2 p hp' hps e' he'
            simp only [List.mem_append]
            right
            exact this
      | ok jid =>
        have hr : submitSingle env prov jobs q lang
            = ⟨none, dictSet jobs jid (mkRecord (env.resolve q) lang env.now),
               some jid,
               [.submitCall (env.resolve q) lang,
                .save (dictSet jobs jid (mkRecord (env.resolve q) lang env.now)),
                .logSubmitted (env.resolve q) jid]⟩ := by
          unfold submitSingle
          simp only [hj]
        have hb : submitBatch env prov jobs (q :: rest) lang
            = ⟨(submitBatch env prov
                  (dictSet jobs jid (mkRecord (env.resolve q) lang env.now))
                  rest lang).jobs,
               jid :: (submitBatch env prov
                  (dictSet jobs jid (mkRecord (env.resolve q) lang env.now))
                  rest lang).ids,
               [.submitCall (env.resolve q) lang,
                .save (dictSet jobs jid (mkRecord (env.resolve q) lang env.now)),
                .logSubmitted (env.resolve q) jid]
                 ++ (submitBatch env prov
                      (dictSet jobs jid (mkRecord (env.resolve q) lang env.now))
                      rest lang).events⟩ := by
          conv_lhs => rw [submitBatch]
          rw [if_pos hq, hr]
        constructor
        · rw [hb]
          simp only [List.filterMap_cons, hq, if_true, hj, Except.toOption]
          exact congrArg (List.cons jid) (ih _).1
        · intro p hp hps e' he'
          rcases List.mem_cons.mp hp with rfl | hp'
          · rw [hj] at he'
            exact absurd he' (by simp)
          · rw [hb]
            have := (ih (dictSet jobs jid
              (mkRecord (env.resolve q) lang env.now))).2 p hp' hps e' he'
            simp only [List.mem_append]
            right
            exact this
    · have hb : submitBatch env prov jobs (q :: rest) lang
          = submitBatch env prov jobs rest lang := by
        conv_lhs => rw [submitBatch]
        rw [if_neg hq]
      constructor
      · rw [hb]
        simp only [List.filterMap_cons]
        rw [if_neg hq]
        exact (ih jobs).1
      · intro p hp hps e' he'
        rcases List.mem_cons.mp hp with rfl | hp'
        · exact absurd hps hq
        · rw [hb]
          exact (ih jobs).2 p hp' hps e' he'

/-- C4 witness: two supported files, the second one failing — exactly one
id is returned and the failure is logged. -/
theorem submitBatch_isolates_failures_witness :
    (submitBatch ⟨fun p => p, 0⟩
        ⟨fun p _ => if p = "/d/a.mp4" then .ok "idA" else .error "corrupt",
         fun _ => .ok [], fun _ _ => .ok ""⟩
        [] ["/d/a.mp4", "/d/b.wav"] "en-US").ids = ["idA"] ∧
    Event.logSubmitError "/d/b.wav" "corrupt"
      ∈ (submitBatch ⟨fun p => p, 0⟩
        ⟨fun p _ => if p = "/d/a.mp4" then .ok "idA" else .error "corrupt",
         fun _ => .ok [], fun _ _ => .ok ""⟩
        [] ["/d/a.mp4", "/d/b.wav"] "en-US").events := by
  have h := submitBatch_isolates_failures ⟨fun p => p, 0⟩
    ⟨fun p _ => if p = "/d/a.mp4" then .ok "idA" else .error "corrupt",
     fun _ => .ok [], fun _ _ => .ok ""⟩
    [] ["/d/a.mp4", "/d/b.wav"] "en-US"
  refine ⟨?_, ?_⟩
  · rw [h.1]
    decide
  · exact h.2 "/d/b.wav" (by decide) (by decide) "corrupt" rfl

/-- C9: a file whose (lowercased) extension is outside the supported media
set is silently excluded from batch enumeration: deleting it from the
directory listing changes nothing — no provider call, no ledger entry, no
log line, no returned id. -/
theorem submitBatch_skips_unsupported (env : Env) (prov : Provider)
    (jobs : Ledger) (lang : String) (p : String)
    (hp : isSupported p = false) :
    ∀ pre post : List String,
      submitBatch env prov jobs (pre ++ p :: post) lang
        = submitBatch env prov jobs (pre ++ post) lang := by
  intro pre
  induction pre generalizing jobs with
  | nil =>
    intro post
    simp only [List.nil_append]
    conv_lhs => rw [submitBatch]
    rw [if_neg (by rw [hp]; exact Bool.false_ne_true)]
  | cons q rest ih =>
    intro post
    simp only [List.cons_append]
    conv_lhs => rw [submitBatch]
    conv_rhs => rw [submitBatch]
    by_cases hq : isSupported q = true
    · rw [if_pos hq, if_pos hq]
      cases hj : (submitSingle env prov jobs q lang).err with
      | some e =>
        cases hi : (submitSingle env prov jobs q lang).id with
        | some jid => simp only [hj, hi, ih]
        | none => simp only [hj, hi, ih]
      | none =>
        cases hi : (submitSingle env prov jobs q lang).id with
        | some jid => simp only [hj, hi, ih]
        | none => simp only [hj, hi, ih]
    · rw [if_neg hq, if_neg hq]
      exact ih jobs post

/-- C9 witness: a `.txt` file in the middle of a batch is invisible to the
result. -/
theorem submitBatch_skips_unsupported_witness :
    submitBatch ⟨fun p => p, 0⟩
        ⟨fun _ _ => .ok "id1", fun _ => .ok [], fun _ _ => .ok ""⟩
        [] ["/d/a.mp4", "/d/notes.txt", "/d/b.wav"] "en-US"
      = submitBatch ⟨fun p => p, 0⟩
        ⟨fun _ _ => .ok "id1", fun _ => .ok [], fun _ _ => .ok ""⟩
        [] ["/d/a.mp4", "/d/b.wav"] "en-US" := by
  exact submitBatch_skips_unsupported ⟨fun p => p, 0⟩
    ⟨fun _ _ => .ok "id1", fun _ => .ok [], fun _ _ => .ok ""⟩
    [] "en-US" "/d/notes.txt" (by decide) ["/d/a.mp4"] ["/d/b.wav"]

/-! ## Preservation lemmas for the polling loop (claim C1) -/

/-- `_download_result` never touches any other ledger entry. -/
theorem downloadResult_get_other (prov : Provider) (jobs : Ledger)
    (jid jid' : String) (hne : jid' ≠ jid) :
    ledgerGet (downloadResult prov jobs jid).1 jid' = ledgerGet jobs jid' := by
  unfold downloadResult
  cases hf : prov.fetch_result jid (jid ++ "_transcript.json") with
  | error e => simp only [hf]
  | ok p =>
    simp only [hf]
    cases hs : ledgerSetField jobs jid "result" (.str p) with
    | none => simp only [hs]
    | some jobs' =>
      simp only [hs]
      exact ledgerSetField_get_other jobs jobs' jid jid' "result" _ hne hs

/-- `_download_result` preserves the ledger's key list. -/
theorem downloadResult_keys (prov : Provider) (jobs : Ledger) (jid : String) :
    (downloadResult prov jobs jid).1.map Prod.fst = jobs.map Prod.fst := by
  unfold downloadResult
  cases hf : prov.fetch_result jid (jid ++ "_transcript.json") with
  | error e => simp only [hf]
  | ok p =>
    simp only [hf]
    cases hs : ledgerSetField jobs jid "result" (.str p) with
    | none => simp only [hs]
    | some jobs' =>
      simp only [hs]
      exact ledgerSetField_keys jobs jobs' jid "result" _ hs

/-- `_download_result` performs no status query. -/
theorem downloadResult_no_query (prov : Provider) (jobs : Ledger)
    (jid j : String) :
    Event.statusQuery j ∉ (downloadResult prov jobs jid).2 := by
  unfold downloadResult
  cases hf : prov.fetch_result jid (jid ++ "_transcript.json") with
  | error e => simp [hf]
  | ok p =>
    simp only [hf]
    cases hs : ledgerSetField jobs jid "result" (.str p) with
    | none => simp [hs]
    | some jobs' => simp [hs]

/-- Visiting one pending job neither reads nor writes any other entry. -/
theorem visitJob_get_other (prov : Provider) (jobs : Ledger)
    (jid jid' : String) (hne : jid' ≠ jid) :
    ledgerGet (visitJob prov jobs jid).jobs jid' = ledgerGet jobs jid' := by
  unfold visitJob
  cases hst : prov.job_status jid with
  | error e => simp only [hst]
  | ok status =>
    simp only [hst]
    cases hsf : ledgerSetField jobs jid "state"
        ((dictGet status "state").getD (.str "unknown")) with
    | none => simp only [hsf]
    | some jobs1 =>
      simp only [hsf]
      have h1 : ledgerGet jobs1 jid' = ledgerGet jobs jid' :=
        ledgerSetField_get_other jobs jobs1 jid jid' "state" _ hne hsf
      by_cases ht : isTerminalStatusVal
          ((dictGet status "state").getD (.str "unknown")) = true
      · by_cases hsucc : lowerStartsWithSucc
            ((dictGet status "state").getD (.str "unknown")) = true
        · simp only [ht, hsucc, if_true]
          rw [downloadResult_get_other prov jobs1 jid jid' hne]
          exact h1
        · simp only [ht, if_true, hsucc, if_false, Bool.false_eq_true]
          exact h1
      · simp only [ht, if_false, Bool.false_eq_true]
        exact h1

/-- Visiting one pending job preserves the ledger's key list. -/
theorem visitJob_keys (prov : Provider) (jobs : Ledger) (jid : String) :
    (visitJob prov jobs jid).jobs.map Prod.fst = jobs.map Prod.fst := by
  unfold visitJob
  cases hst : prov.job_status jid with
  | error e => simp only [hst]
  | ok status =>
    simp only [hst]
    cases hsf : ledgerSetField jobs jid "state"
        ((dictGet status "state").getD (.str "unknown")) with
    | none => simp only [hsf]
    | some jobs1 =>
      simp only [hsf]
      have h1 := ledgerSetField_keys jobs jobs1 jid "state" _ hsf
      by_cases ht : isTerminalStatusVal
          ((dictGet status "state").getD (.str "unknown")) = true
      · by_cases hsucc : lowerStartsWithSucc
            ((dictGet status "state").getD (.str "unknown")) = true
        · simp only [ht, hsucc, if_true]
          rw [downloadResult_keys prov jobs1 jid]
          exact h1
        · simp only [ht, if_true, hsucc, if_false, Bool.false_eq_true]
          exact h1
      · simp only [ht, if_false, Bool.false_eq_true]
        exact h1

/-- Visiting job `jid` queries the status of `jid` only. -/
theorem visitJob_no_query_other (prov : Provider) (jobs : Ledger)
    (jid jid' : String) (hne : jid' ≠ jid) :
    Event.statusQuery jid' ∉ (visitJob prov jobs jid).events := by
  unfold visitJob
  cases hst : prov.job_status jid with
  | error e => simp [hst, hne]
  | ok status =>
    simp only [hst]
    cases hsf : ledgerSetField jobs jid "state"
        ((dictGet status "state").getD (.str "unknown")) with
    | none => simp [hsf, hne]
    | some jobs1 =>
      simp only [hsf]
      by_cases ht : isTerminalStatusVal
          ((dictGet status "state").getD (.str "unknown")) = true
      · by_cases hsucc : lowerStartsWithSucc
            ((dictGet status "state").getD (.str "unknown")) = true
        · simp only [ht, hsucc, if_true]
          intro hmem
          simp only [List.mem_append, List.mem_cons, List.mem_singleton] at hmem
          rcases hmem with ((h | h) | h) | h
          · exact hne (Event.statusQuery.inj h)
          · exact absurd h (by simp)
          · exact downloadResult_no_query prov jobs1 jid jid' h
          · exact absurd h (by simp)
        · simp only [ht, if_true, hsucc, if_false, Bool.false_eq_true]
          simp [hne]
      · simp only [ht, if_false, Bool.false_eq_true]
        simp [hne]

/-- A sweep leaves every non-pending entry untouched, never queries it, and
never adds it to the surviving pending set; the key list is preserved. -/
theorem sweepJobs_not_pending (prov : Provider) (jobs : Ledger)
    (pending : List String) (jid : String) (hnp : jid ∉ pending) :
    ledgerGet (sweepJobs prov jobs pending).jobs jid = ledgerGet jobs jid ∧
    Event.statusQuery jid ∉ (sweepJobs prov jobs pending).events ∧
    jid ∉ (sweepJobs prov jobs pending).pending ∧
    (sweepJobs prov jobs pending).jobs.map Prod.fst = jobs.map Prod.fst := by
  induction pending generalizing jobs with
  | nil => simp [sweepJobs]
  | cons j rest ih =>
    have hne : jid ≠ j := fun he => hnp (he ▸ List.mem_cons_self j rest)
    have hnr : jid ∉ rest := fun hr => hnp (List.mem_cons_of_mem j hr)
    rw [sweepJobs]
    cases hve : (visitJob prov jobs j).err with
    | some e =>
      simp only [hve]
      refine ⟨visitJob_get_other prov jobs j jid hne,
        visitJob_no_query_other prov jobs j jid hne, hnp,
        visitJob_keys prov jobs j⟩
    | none =>
      simp only [hve]
      have ihr := ih (visitJob prov jobs j).jobs hnr
      refine ⟨?_, ?_, ?_, ?_⟩
      · rw [ihr.1]
        exact visitJob_get_other prov jobs j jid hne
      · intro hmem
        rcases List.mem_append.mp hmem with h | h
        · exact visitJob_no_query_other prov jobs j jid hne h
        · exact ihr.2.1 h
      · by_cases ht : (visitJob prov jobs j).terminal = true
        · simp only [ht, if_true]
          exact ihr.2.2.1
        · simp only [if_neg ht]
          intro hmem
          rcases List.mem_cons.mp hmem with h | h
          · exact hne h
          · exact ihr.2.2.1 h
      · rw [ihr.2.2.2]
        exact visitJob_keys prov jobs j

/-- The polling loop leaves every non-pending entry untouched, never
queries it, and preserves the key list. -/
theorem pollLoop_not_pending (prov : Provider) (interval : Int) (fuel : Nat)
    (pending : List String) (jobs : Ledger) (jid : String)
    (hnp : jid ∉ pending) :
    ledgerGet (pollLoop prov interval fuel pending jobs).jobs jid
      = ledgerGet jobs jid ∧
    Event.statusQuery jid ∉ (pollLoop prov interval fuel pending jobs).events ∧
    (pollLoop prov interval fuel pending jobs).jobs.map Prod.fst
      = jobs.map Prod.fst := by
  induction fuel generalizing pending jobs with
  | zero => simp [pollLoop]
  | succ fuel ih =>
    rw [pollLoop]
    by_cases hpe : pending.isEmpty = true
    · simp [hpe]
    · simp only [hpe, Bool.false_eq_true, if_false]
      have hsw := sweepJobs_not_pending prov jobs pending jid hnp
      cases hse : (sweepJobs prov jobs pending).err with
      | some e =>
        simp only [hse]
        exact ⟨hsw.1, hsw.2.1, hsw.2.2.2⟩
      | none =>
        simp only [hse]
        by_cases hpe2 : (sweepJobs prov jobs pending).pending.isEmpty = true
        · simp only [hpe2, if_true]
          exact ⟨hsw.1, hsw.2.1, hsw.2.2.2⟩
        · simp only [hpe2, Bool.false_eq_true, if_false]
          have ihr := ih (sweepJobs prov jobs pending).pending
            (sweepJobs prov jobs pending).jobs hsw.2.2.1
          refine ⟨?_, ?_, ?_⟩
          · rw [ihr.1, hsw.1]
          · intro hmem
            rcases List.mem_append.mp hmem with h | h
            · rcases List.mem_append.mp h with h2 | h2
              · exact hsw.2.1 h2
              · simp at h2
            · exact ihr.2.1 h
          · rw [ihr.2.2, hsw.2.2.2]

/-- A terminal (lowercase `succeeded`/`failed`) entry is excluded from the
pending set computed by `poll`. -/
theorem terminal_not_in_pending (jobs : Ledger) (jid : String)
    (meta : List (String × JValue)) (hkeys : keysDistinct jobs = true)
    (hget : ledgerGet jobs jid = some (.obj meta))
    (hpend : entryPending meta = false) :
    jid ∉ (jobs.filter (fun e =>
      match e.2 with
      | .obj m => entryPending m
      | _ => true)).map (fun e => e.1) := by
  intro hmem
  obtain ⟨e, hef, he1⟩ := List.mem_map.mp hmem
  obtain ⟨hej, hep⟩ := List.mem_filter.mp hef
  obtain ⟨k, v⟩ := e
  cases he1
  have := dictGet_of_mem_distinct jobs k v hkeys hej
  rw [show dictGet jobs k = ledgerGet jobs k from rfl, hget] at this
  injection this with this
  subst this
  simp only [hpend] at hep
  exact absurd hep (by simp)

/-- One `poll` invocation leaves a terminal entry untouched, never queries
it, and preserves the ledger's key list. -/
theorem poll_terminal_stable (prov : Provider) (interval : Int) (fuel : Nat)
    (jobs : Ledger) (jid : String) (meta : List (String × JValue))
    (hkeys : keysDistinct jobs = true)
    (hget : ledgerGet jobs jid = some (.obj meta))
    (hpend : entryPending meta = false) :
    ledgerGet (poll prov interval fuel jobs).jobs jid = some (.obj meta) ∧
    Event.statusQuery jid ∉ (poll prov interval fuel jobs).events ∧
    (poll prov interval fuel jobs).jobs.map Prod.fst = jobs.map Prod.fst := by
  unfold poll
  by_cases hobj : jobs.all (fun e => e.2.isObj) = true
  · simp only [hobj, if_true]
    by_cases hpe : ((jobs.filter (fun e =>
        match e.2 with
        | .obj m => entryPending m
        | _ => true)).map (fun e => e.1)).isEmpty = true
    · simp only [hpe, if_true]
      exact ⟨hget, by simp, by simp⟩
    · simp only [hpe, Bool.false_eq_true, if_false]
      have hnp := terminal_not_in_pending jobs jid meta hkeys hget hpend
      have h := pollLoop_not_pending prov interval fuel _ jobs jid hnp
      exact ⟨by rw [h.1]; exact hget, h.2.1, h.2.2⟩
  · simp only [hobj, Bool.false_eq_true, if_false]
    exact ⟨hget, by simp, by simp⟩

/-- C1: once a job record's state is terminal (`"succeeded"` or
`"failed"`), then for every sequence of subsequent `poll` invocations
(each with arbitrary provider behavior, interval, and number of observed
sweeps) the record never changes — in particular it never leaves the
terminal state — and no status query is ever issued for it: it is excluded
from the pending set of every subsequent invocation. -/
theorem pollSeq_terminal_stable (jobs : Ledger) (jid : String)
    (meta : List (String × JValue)) (invs : List (Provider × Int × Nat))
    (hkeys : keysDistinct jobs = true)
    (hget : ledgerGet jobs jid = some (.obj meta))
    (hterm : dictGet meta "state" = some (.str "succeeded") ∨
             dictGet meta "state" = some (.str "failed")) :
    ledgerGet (pollSeq jobs invs).1 jid = some (.obj meta) ∧
    Event.statusQuery jid ∉ (pollSeq jobs invs).2 := by
  have hpend : entryPending meta = false := by
    rcases hterm with h | h
    · simp [entryPending, h]
    · simp [entryPending, h]
  clear hterm
  induction invs generalizing jobs with
  | nil => exact ⟨hget, by simp [pollSeq]⟩
  | cons inv rest ih =>
    obtain ⟨prov, interval, fuel⟩ := inv
    have hstep := poll_terminal_stable prov interval fuel jobs jid meta
      hkeys hget hpend
    have hkeys2 : keysDistinct (poll prov interval fuel jobs).jobs = true := by
      unfold keysDistinct
      rw [hstep.2.2]
      exact hkeys
    have ihr := ih (poll prov interval fuel jobs).jobs hkeys2 hstep.1
    rw [pollSeq]
    refine ⟨?_, ?_⟩
    · have : (pollSeq (poll prov interval fuel jobs).jobs rest).1
          = (let r := poll prov interval fuel jobs
             let p := pollSeq r.jobs rest
             (p.1, r.events ++ p.2)).1 := rfl
      simpa using ihr.1
    · intro hmem
      have hm2 : Event.statusQuery jid ∈
          (poll prov interval fuel jobs).events ++
          (pollSeq (poll prov interval fuel jobs).jobs rest).2 := by
        simpa using hmem
      rcases List.mem_append.mp hm2 with h | h
      · exact hstep.2.1 h
      · exact ihr.2 h

/-- C1 witness: a ledger with one succeeded and one running entry, polled
twice — the succeeded record survives untouched and unqueried. -/
theorem pollSeq_terminal_stable_witness :
    ledgerGet (pollSeq
        [("a", .obj [("state", .str "succeeded"), ("result", .str "p")]),
         ("b", .obj [("state", .str "running")])]
        [(⟨fun _ _ => .ok "", fun _ => .ok [("state", .str "running")],
           fun _ _ => .ok ""⟩, 30, 1),
         (⟨fun _ _ => .ok "", fun _ => .ok [("state", .str "Failed")],
           fun _ _ => .ok ""⟩, 30, 1)]).1 "a"
      = some (.obj [("state", .str "succeeded"), ("result", .str "p")]) ∧
    Event.statusQuery "a" ∉ (pollSeq
        [("a", .obj [("state", .str "succeeded"), ("result", .str "p")]),
         ("b", .obj [("state", .str "running")])]
        [(⟨fun _ _ => .ok "", fun _ => .ok [("state", .str "running")],
           fun _ _ => .ok ""⟩, 30, 1),
         (⟨fun _ _ => .ok "", fun _ => .ok [("state", .str "Failed")],
           fun _ _ => .ok ""⟩, 30, 1)]).2 := by
  exact pollSeq_terminal_stable
    [("a", .obj [("state", .str "succeeded"), ("result", .str "p")]),
     ("b", .obj [("state", .str "running")])] "a"
    [("state", .str "succeeded"), ("result", .str "p")]
    [(⟨fun _ _ => .ok "", fun _ => .ok [("state", .str "running")],
       fun _ _ => .ok ""⟩, 30, 1),
     (⟨fun _ _ => .ok "", fun _ => .ok [("state", .str "Failed")],
       fun _ _ => .ok ""⟩, 30, 1)]
    (by decide) (by decide) (Or.inl (by decide))

/-- C7: persistence round-trip — `json.loads(json.dumps(m, indent=2))`
returns the ledger mapping field-for-field, including unknown extra fields
on any record (the well-formedness hypothesis only states that every
object's keys are distinct, which is true of any Python dict); and loading
when the ledger file is absent yields the empty mapping. -/
theorem ledger_save_load_roundtrip (m : Ledger)
    (hwf : JValue.wf (.obj m) = true) :
    loadJobs (some (saveJobs m)) = .ok (.obj m) ∧
    loadJobs none = .ok (.obj ([] : Ledger)) := by
  refine ⟨?_, rfl⟩
  have hdata : (saveJobs m).data = encValue 0 (.obj m) := rfl
  have hp : parseValue (2 * (saveJobs m).data.length + 2) ((saveJobs m).data)
      = some (.obj m, []) := by
    rw [hdata]
    have h := (parse_enc (2 * (encValue 0 (.obj m)).length + 2)).1
      0 (.obj m) [] (by omega) hwf rfl
    rw [List.append_nil] at h
    exact h
  have hjson : parseJson (saveJobs m) = some (.obj m) := by
    unfold parseJson
    rw [hp]
    rfl
  unfold loadJobs
  simp only [hjson]

/-- C7 witness: a record with standard fields plus an unknown extra field
survives the save/load cycle byte-for-byte, and an absent file loads as the
empty mapping. -/
theorem ledger_save_load_roundtrip_witness :
    loadJobs (some (saveJobs
      [("job-1", .obj [("file", .str "/v/a.mp4"),
                       ("submitted", .num 1700000000),
                       ("language", .str "en-US"),
                       ("state", .str "submitted"),
                       ("extra_unknown", .arr [.num 1, .str "x", .null])])]))
      = .ok (.obj
      [("job-1", .obj [("file", .str "/v/a.mp4"),
                       ("submitted", .num 1700000000),
                       ("language", .str "en-US"),
                       ("state", .str "submitted"),
                       ("extra_unknown", .arr [.num 1, .str "x", .null])])]) ∧
    loadJobs none = .ok (.obj ([] : Ledger)) := by
  exact ledger_save_load_roundtrip
    [("job-1", .obj [("file", .str "/v/a.mp4"),
                     ("submitted", .num 1700000000),
                     ("language", .str "en-US"),
                     ("state", .str "submitted"),
                     ("extra_unknown", .arr [.num 1, .str "x", .null])])]
    (by decide)

end VideoTranscriber
